import Mathlib

/-!
Shallow embedding of the MCBM numerical core (`cmt/src/mcbm.cpp`): the
parameter store, the flat-buffer vectorization layer (`MCBM::parameters`,
`MCBM::setParameters`), the forward engine (`MCBM::sample`,
`MCBM::logLikelihood`), the gradient engine (`MCBM::computeGradient`) and the
finite-difference gradient checker (`MCBM::checkGradient`).

Machine doubles are modelled as exact reals.  Eigen matrices are embedded as
functions `Fin r → Fin c → ℝ`; Eigen's default storage is column-major, so the
flat element order of an `r × c` matrix places entry `(i, j)` at linear
position `j * r + i`.  Raw `lbfgsfloatval_t*` buffers are embedded as total
functions `ℕ → ℝ` (reads beyond the meaningful prefix are never used by the
embedded code paths, mirroring the pointer discipline of the source).
-/

noncomputable section

namespace CMT

/-- Modelled from the spec: `logSumExp` is declared in `utils.h` and defined in
`utils.cpp`, which is not among the sources.  The spec (glossary; §4.3 step 5;
§7(d)) prescribes the numerically stable computation of `log (Σ exp (x i))`
obtained by subtracting the maximum before exponentiating.  Columnwise
reduction of a matrix is embedded by applying this to each column vector. -/
def logSumExp {n : ℕ} (v : Fin n → ℝ) : ℝ :=
  if h : (Finset.univ : Finset (Fin n)).Nonempty then
    Finset.univ.sup' h v + Real.log (∑ i, Real.exp (v i - Finset.univ.sup' h v))
  else 0

/-- Modelled from the spec: the source stacks the two marginal unnormalized
log-probabilities into a 2-row matrix and reduces it columnwise with the same
`logSumExp`; this is the binary instance of the stabilized formula. -/
def logSumExp2 (a b : ℝ) : ℝ :=
  max a b + Real.log (Real.exp (a - max a b) + Real.exp (b - max a b))

/-- On a nonempty index type the stabilized log-sum-exp agrees with the
unstabilized `log ∘ sum ∘ exp`. -/
theorem logSumExp_eq {n : ℕ} (hn : 0 < n) (v : Fin n → ℝ) :
    logSumExp v = Real.log (∑ i, Real.exp (v i)) := by
  have hne : (Finset.univ : Finset (Fin n)).Nonempty := by
    simpa [Finset.univ_nonempty_iff] using Fin.pos_iff_nonempty.mp hn
  have hM : ∀ M : ℝ, (∑ i, Real.exp (v i - M)) = (∑ i, Real.exp (v i)) / Real.exp M := by
    intro M
    rw [Finset.sum_div]
    refine Finset.sum_congr rfl fun i _ => ?_
    rw [Real.exp_sub]
  have hpos : (0:ℝ) < ∑ i, Real.exp (v i) :=
    Finset.sum_pos (fun i _ => Real.exp_pos _) hne
  rw [logSumExp, dif_pos hne, hM, Real.log_div (ne_of_gt hpos) (Real.exp_ne_zero _),
    Real.log_exp]
  ring

/-- The binary stabilized log-sum-exp agrees with `log (exp a + exp b)`. -/
theorem logSumExp2_eq (a b : ℝ) :
    logSumExp2 a b = Real.log (Real.exp a + Real.exp b) := by
  have h : Real.exp (a - max a b) + Real.exp (b - max a b)
      = (Real.exp a + Real.exp b) / Real.exp (max a b) := by
    rw [Real.exp_sub, Real.exp_sub]; ring
  have hpos : (0:ℝ) < Real.exp a + Real.exp b := by positivity
  rw [logSumExp2, h, Real.log_div (ne_of_gt hpos) (Real.exp_ne_zero _), Real.log_exp]
  ring

/-- The model's learnable state: the six parameter groups of `MCBM`, with the
shapes fixed by `(dimIn, numComponents, numFeatures)` (`mcbm.cpp` lines
122–127 together with the member declarations used there). -/
@[ext] structure MCBM (dimIn numComponents numFeatures : ℕ) where
  priors : Fin numComponents → ℝ
  weights : Fin numComponents → Fin numFeatures → ℝ
  features : Fin dimIn → Fin numFeatures → ℝ
  predictors : Fin numComponents → Fin dimIn → ℝ
  inputBias : Fin dimIn → Fin numComponents → ℝ
  outputBias : Fin numComponents → ℝ

/-- `MCBM::Parameters` (training configuration), `mcbm.cpp` lines 38–54.  The
optional progress callback is omitted: it is an opaque pointer never consulted
by any of the embedded code paths.  `batchSize` is kept as a natural number;
the source stores a C `int`, and every property below that involves the batch
loop assumes a positive batch size (a non-positive `int` batch size makes the
C++ loop at line 337 non-terminating, which has no shallow embedding). -/
structure Parameters where
  verbosity : ℤ := 0
  maxIter : ℕ := 1000
  threshold : ℝ := 1e-5
  numGrad : ℕ := 20
  batchSize : ℕ := 2000
  cbIter : ℕ := 25
  trainPriors : Bool := true
  trainWeights : Bool := true
  trainFeatures : Bool := true
  trainPredictors : Bool := true
  trainInputBias : Bool := true
  trainOutputBias : Bool := true
  regularizeFeatures : ℝ := 0
  regularizePredictors : ℝ := 0

/-! ### Flat-buffer layout

Group sizes and the running offsets of `MCBM::parameters`,
`MCBM::setParameters` and `MCBM::computeGradient`: the offset advances past a
group exactly when that group's training flag is set, in the fixed order
priors, weights, features, predictors, inputBias, outputBias. -/

/-- Offset of the weights group in the flat buffer. -/
def offWeights (D K F : ℕ) (p : Parameters) : ℕ :=
  if p.trainPriors then K else 0

/-- Offset of the features group in the flat buffer. -/
def offFeatures (D K F : ℕ) (p : Parameters) : ℕ :=
  offWeights D K F p + (if p.trainWeights then K * F else 0)

/-- Offset of the predictors group in the flat buffer. -/
def offPredictors (D K F : ℕ) (p : Parameters) : ℕ :=
  offFeatures D K F p + (if p.trainFeatures then D * F else 0)

/-- Offset of the inputBias group in the flat buffer. -/
def offInputBias (D K F : ℕ) (p : Parameters) : ℕ :=
  offPredictors D K F p + (if p.trainPredictors then K * D else 0)

/-- Offset of the outputBias group in the flat buffer. -/
def offOutputBias (D K F : ℕ) (p : Parameters) : ℕ :=
  offInputBias D K F p + (if p.trainInputBias then D * K else 0)

/-- Modelled from the spec: `MCBM::numParameters` is declared in `mcbm.h`,
which is not among the sources.  Per §3 (Flat Parameter Buffer) its value is
the sum of the sizes of all groups whose training flag is set; this also makes
the buffer returned by the embedded `MCBM.parameters` have exactly this
length (`parameters_length` below). -/
def numParameters (D K F : ℕ) (p : Parameters) : ℕ :=
  offOutputBias D K F p + (if p.trainOutputBias then K else 0)

/-- Entry `k` of the column-major element stream of an `r × c` matrix. -/
def matEntry {r c : ℕ} (M : Fin r → Fin c → ℝ) (k : ℕ) : ℝ :=
  if h : k % r < r ∧ k / r < c then M ⟨k % r, h.1⟩ ⟨k / r, h.2⟩ else 0

/-- Entry `k` of the element stream of a length-`n` vector. -/
def vecEntry {n : ℕ} (v : Fin n → ℝ) (k : ℕ) : ℝ :=
  if h : k < n then v ⟨k, h⟩ else 0

/-- Column-major flattening of an `r × c` matrix into a list of its `r * c`
elements (Eigen `data()` order). -/
def flatMat {r c : ℕ} (M : Fin r → Fin c → ℝ) : List ℝ :=
  (List.range (r * c)).map (matEntry M)

/-- Flattening of a length-`n` vector. -/
def flatVec {n : ℕ} (v : Fin n → ℝ) : List ℝ :=
  (List.range n).map (vecEntry v)

/-- Reading a length-`n` vector from a raw buffer at a given offset
(`VectorLBFGS(x + offset, n)`). -/
def readVec (x : ℕ → ℝ) (off n : ℕ) : Fin n → ℝ :=
  fun i => x (off + i)

/-- Reading an `r × c` matrix, column-major, from a raw buffer at a given
offset (`MatrixLBFGS(x + offset, r, c)`). -/
def readMat (x : ℕ → ℝ) (off r c : ℕ) : Fin r → Fin c → ℝ :=
  fun i j => x (off + (j * r + i))

variable {D K F : ℕ}

/-- `MCBM::parameters` (`mcbm.cpp` lines 208–232): allocate a buffer of
`numParameters` doubles and copy each flagged group's elements into it, in the
fixed group order, in the group's native (column-major) element order. -/
def MCBM.parameters (m : MCBM D K F) (p : Parameters) : List ℝ :=
  (if p.trainPriors then flatVec m.priors else [])
    ++ ((if p.trainWeights then flatMat m.weights else [])
    ++ ((if p.trainFeatures then flatMat m.features else [])
    ++ ((if p.trainPredictors then flatMat m.predictors else [])
    ++ ((if p.trainInputBias then flatMat m.inputBias else [])
    ++ (if p.trainOutputBias then flatVec m.outputBias else [])))))

/-- `MCBM::setParameters` (`mcbm.cpp` lines 236–268): for each flagged group,
reinterpret the next contiguous span of the buffer as that group's array and
assign it; unflagged groups keep the current state. -/
def MCBM.setParameters (m : MCBM D K F) (x : ℕ → ℝ) (p : Parameters) : MCBM D K F where
  priors := if p.trainPriors then readVec x 0 K else m.priors
  weights := if p.trainWeights then readMat x (offWeights D K F p) K F else m.weights
  features := if p.trainFeatures then readMat x (offFeatures D K F p) D F else m.features
  predictors :=
    if p.trainPredictors then readMat x (offPredictors D K F p) K D else m.predictors
  inputBias :=
    if p.trainInputBias then readMat x (offInputBias D K F p) D K else m.inputBias
  outputBias :=
    if p.trainOutputBias then readVec x (offOutputBias D K F p) K else m.outputBias

/-- `MCBM::train` (`mcbm.cpp` lines 202–204): the body is a bare
`return false;`, so the call reports failure and performs no state change;
the result pairs the returned status with the (unchanged) model. -/
def MCBM.train {N : ℕ} (m : MCBM D K F) (input : Fin D → Fin N → ℤ)
    (output : Fin N → ℤ) (p : Parameters) : Bool × MCBM D K F :=
  (false, m)

/-- The hyperparameter validation of the constructor `MCBM::MCBM`
(`mcbm.cpp` lines 110–119): `mNumFeatures` defaults to `dimIn` when the
`numFeatures` argument is negative, and an exception is thrown when
`mNumComponents < 1` or `mNumFeatures < 1`.  The result is the thrown message,
or `none` when construction proceeds. -/
def constructorError (dimIn numComponents numFeatures : ℤ) : Option String :=
  let nf := if numFeatures < 0 then dimIn else numFeatures
  if numComponents < 1 then some "The number of components has to be positive."
  else if nf < 1 then some "The number of features has to be positive."
  else none

/-- The parameter initialization of the constructor (`mcbm.cpp` lines
122–127), for the validated shapes.  The external random sources
(`ArrayXXd::Random`, which yields values in `[-1, 1]`, and `sampleNormal`
from the absent `utils.cpp`) are supplied as explicit arguments `rw`, `rf`,
`rp`; the constructor applies `abs`, scaling, and shifting exactly as the
source does. -/
def MCBM.construct (rw : Fin K → Fin F → ℝ) (rf : Fin D → Fin F → ℝ)
    (rp : Fin K → Fin D → ℝ) : MCBM D K F where
  priors := fun _ => 0
  weights := fun i j => |rw i j| / 100 + 0.01
  features := fun i j => rf i j / 100
  predictors := fun i j => rp i j / 100
  inputBias := fun _ _ => 0
  outputBias := fun _ => 0

/-! ### Forward engine (per column)

All Eigen operations in `MCBM::sample`, `MCBM::logLikelihood` and the forward
part of `MCBM::computeGradient` (matrix products against the input, columnwise
additions, elementwise array operations, columnwise `logSumExp` reductions)
produce column `n` of their result from column `n` of the input alone, so the
batch pipeline is embedded column by column: `u` is one input column. -/

/-- `features.transpose() * input`, one column: entry `f` of the feature
activations of column `u`. -/
def MCBM.featureOutput (m : MCBM D K F) (u : Fin D → ℝ) : Fin F → ℝ :=
  fun f => ∑ d, m.features d f * u d

/-- One column of `(weights * featureOutputSq + inputBias.transpose() * input)
.colwise() + priors`: the unnormalized per-component log-score for output 0
(`logProb0` in `sample`/`logLikelihood`, `logPost0` in `computeGradient`). -/
def MCBM.logPost0 (m : MCBM D K F) (u : Fin D → ℝ) : Fin K → ℝ :=
  fun c => (∑ f, m.weights c f * m.featureOutput u f ^ 2)
    + (∑ d, m.inputBias d c * u d) + m.priors c

/-- One column of `(logPost0 + predictors * input).colwise() + outputBias`:
the unnormalized per-component log-score for output 1. -/
def MCBM.logPost1 (m : MCBM D K F) (u : Fin D → ℝ) : Fin K → ℝ :=
  fun c => m.logPost0 u c + (∑ d, m.predictors c d * u d) + m.outputBias c

/-- Marginal unnormalized log-probability of output 0 (componentwise
`logSumExp` reduction of the log-scores). -/
def MCBM.logProb0 (m : MCBM D K F) (u : Fin D → ℝ) : ℝ :=
  logSumExp (m.logPost0 u)

/-- Marginal unnormalized log-probability of output 1. -/
def MCBM.logProb1 (m : MCBM D K F) (u : Fin D → ℝ) : ℝ :=
  logSumExp (m.logPost1 u)

/-- The joint normalizer: `logSumExp` of the stacked two-row matrix
`logProb01`, one column. -/
def MCBM.logNorm (m : MCBM D K F) (u : Fin D → ℝ) : ℝ :=
  logSumExp2 (m.logProb0 u) (m.logProb1 u)

/-- The normalized conditional log-probability of output 0
(`logProb0 -= logNorm`). -/
def MCBM.normLogProb0 (m : MCBM D K F) (u : Fin D → ℝ) : ℝ :=
  m.logProb0 u - m.logNorm u

/-- The normalized conditional log-probability of output 1
(`logProb1 -= logNorm`). -/
def MCBM.normLogProb1 (m : MCBM D K F) (u : Fin D → ℝ) : ℝ :=
  m.logProb1 u - m.logNorm u

/-- One entry of the value returned by `MCBM::logLikelihood`
(`output.array() * logProb1 + (1 - output.array()) * logProb0` after
normalization), for one real input column `u` and output value `y`. -/
def MCBM.colLogLik (m : MCBM D K F) (u : Fin D → ℝ) (y : ℝ) : ℝ :=
  y * m.normLogProb1 u + (1 - y) * m.normLogProb0 u

/-- `MCBM::logLikelihood` (`mcbm.cpp` lines 165–192): the integer input and
output matrices are cast to doubles and the per-column normalized conditional
log-likelihood is returned, one entry per column. -/
def MCBM.logLikelihood {N : ℕ} (m : MCBM D K F) (input : Fin D → Fin N → ℤ)
    (output : Fin N → ℤ) : Fin N → ℝ :=
  fun n => m.colLogLik (fun d => (input d n : ℝ)) (output n : ℝ)

/-- `MCBM::sample` (`mcbm.cpp` lines 137–161): draw, for each column, a
uniform variate (`Array::Random().abs()`, embedded by supplying the raw
random row `r` and taking absolute values) and emit 1 exactly when it is
below `exp (logProb1 - logNorm)` of that column. -/
def MCBM.sample {N : ℕ} (m : MCBM D K F) (input : Fin D → Fin N → ℤ)
    (r : Fin N → ℝ) : Fin N → ℤ :=
  fun n =>
    if |r n| < Real.exp (m.normLogProb1 (fun d => (input d n : ℝ))) then 1 else 0

/-! ### Gradient engine -/

/-- `tmp` (`mcbm.cpp` line 374):
`output * exp logProb0 - (1 - output) * exp logProb1` after normalization. -/
def MCBM.colTmp (m : MCBM D K F) (u : Fin D → ℝ) (y : ℝ) : ℝ :=
  y * Real.exp (m.normLogProb0 u) - (1 - y) * Real.exp (m.normLogProb1 u)

/-- The per-component posterior for output 0 (`logPost0.exp()` after the
rowwise subtraction of `logProb0` at line 356). -/
def MCBM.post0 (m : MCBM D K F) (u : Fin D → ℝ) : Fin K → ℝ :=
  fun c => Real.exp (m.logPost0 u c - m.logProb0 u)

/-- The per-component posterior for output 1. -/
def MCBM.post1 (m : MCBM D K F) (u : Fin D → ℝ) : Fin K → ℝ :=
  fun c => Real.exp (m.logPost1 u c - m.logProb1 u)

/-- `postDiffTmp = post1Tmp - post0Tmp` (lines 376–378), one column. -/
def MCBM.postDiffTmp (m : MCBM D K F) (u : Fin D → ℝ) (y : ℝ) : Fin K → ℝ :=
  fun c => m.post1 u c * m.colTmp u y - m.post0 u c * m.colTmp u y

/-- Column `n`'s contribution to `priorsGrad` (line 381). -/
def MCBM.colGradPriors (m : MCBM D K F) (u : Fin D → ℝ) (y : ℝ) : Fin K → ℝ :=
  m.postDiffTmp u y

/-- Column `n`'s contribution to `weightsGrad` (line 384):
`postDiffTmp * featureOutputSq.transpose()`. -/
def MCBM.colGradWeights (m : MCBM D K F) (u : Fin D → ℝ) (y : ℝ) :
    Fin K → Fin F → ℝ :=
  fun c f => m.postDiffTmp u y c * m.featureOutput u f ^ 2

/-- Column `n`'s contribution to `featuresGrad` (lines 386–390):
`input * (featureOutput ∘ (weightsᵀ * postDiffTmp * 2))ᵀ`, where `∘` is the
elementwise array product. -/
def MCBM.colGradFeatures (m : MCBM D K F) (u : Fin D → ℝ) (y : ℝ) :
    Fin D → Fin F → ℝ :=
  fun d f => u d * (m.featureOutput u f * ((∑ c, m.weights c f * m.postDiffTmp u y c) * 2))

/-- Column `n`'s contribution to `predictorsGrad` (line 393):
`post1Tmp * input.transpose()`. -/
def MCBM.colGradPredictors (m : MCBM D K F) (u : Fin D → ℝ) (y : ℝ) :
    Fin K → Fin D → ℝ :=
  fun c d => m.post1 u c * m.colTmp u y * u d

/-- Column `n`'s contribution to `inputBiasGrad` (line 396):
`input * postDiffTmp.transpose()`. -/
def MCBM.colGradInputBias (m : MCBM D K F) (u : Fin D → ℝ) (y : ℝ) :
    Fin D → Fin K → ℝ :=
  fun d c => u d * m.postDiffTmp u y c

/-- Column `n`'s contribution to `outputBiasGrad` (line 399). -/
def MCBM.colGradOutputBias (m : MCBM D K F) (u : Fin D → ℝ) (y : ℝ) : Fin K → ℝ :=
  fun c => m.post1 u c * m.colTmp u y

/-- The batch loop of `MCBM::computeGradient` (line 337): starting from
column `b`, process the contiguous slice `[b, min (b + B) numData)` and
continue at `b + B`.  The fuel argument bounds the number of iterations; with
a positive batch size the C++ loop performs at most `numData` iterations, so
running with fuel `numData` (see `batchSum`) embeds it exactly.  (With batch
size 0 the C++ loop would not terminate; that configuration has no shallow
embedding and is excluded by hypothesis wherever it matters.) -/
def batchLoop {M : Type*} [AddCommMonoid M] (f : ℕ → M) (numData B : ℕ) :
    ℕ → ℕ → M
  | 0, _ => 0
  | fuel + 1, b =>
    if b < numData then
      (∑ n ∈ Finset.Ico b (min (b + B) numData), f n)
        + batchLoop f numData B fuel (b + B)
    else 0

/-- The batched accumulation over all columns: the batch loop started at
column 0. -/
def batchSum {M : Type*} [AddCommMonoid M] (f : ℕ → M) (numData B : ℕ) : M :=
  batchLoop f numData B numData 0

/-- With a positive batch size, the batched accumulation visits every column
exactly once, in order. -/
theorem batchLoop_eq {M : Type*} [AddCommMonoid M] (f : ℕ → M) (numData B : ℕ)
    (hB : 1 ≤ B) :
    ∀ fuel b, numData - b ≤ fuel →
      batchLoop f numData B fuel b = ∑ n ∈ Finset.Ico b numData, f n := by
  intro fuel
  induction fuel with
  | zero =>
    intro b hb
    have : numData ≤ b := by omega
    rw [batchLoop, Finset.Ico_eq_empty (by omega), Finset.sum_empty]
  | succ fuel ih =>
    intro b hb
    rw [batchLoop]
    by_cases h : b < numData
    · rw [if_pos h, ih (b + B) (by omega)]
      rcases le_total (b + B) numData with hmin | hmin
      · rw [min_eq_left hmin, Finset.sum_Ico_consecutive f (by omega) hmin]
      · rw [min_eq_right hmin,
          Finset.Ico_eq_empty (show ¬ b + B < numData by omega), Finset.sum_empty,
          add_zero]
    · rw [if_neg h, Finset.Ico_eq_empty (by omega), Finset.sum_empty]

/-- With a positive batch size, `batchSum` is the plain sum over all
columns. -/
theorem batchSum_eq {M : Type*} [AddCommMonoid M] (f : ℕ → M) (numData B : ℕ)
    (hB : 1 ≤ B) :
    batchSum f numData B = ∑ n ∈ Finset.range numData, f n := by
  rw [batchSum, batchLoop_eq f numData B hB numData 0 (by omega),
    Finset.range_eq_Ico]

/-- The normalization constant `normConst = numData / log 2`
(`mcbm.cpp` line 402). -/
def mcbmNormConst (numData : ℕ) : ℝ :=
  (numData : ℝ) / Real.log 2

/-- The effective batch width `min(params.batchSize, numData)`
(`mcbm.cpp` line 335). -/
def effBatch (p : Parameters) (numData : ℕ) : ℕ :=
  min p.batchSize numData

/-- The value returned by `MCBM::computeGradient` (`mcbm.cpp` lines 272–409):
the parameter views are resolved per group from the supplied flat buffer `x`
(flagged groups) or the stored parameters (unflagged groups) — precisely the
model produced by `setParameters` — the per-column conditional log-likelihood
is accumulated over the batches, and the total is divided by `normConst`.
`input` and `output` are raw column-indexed data (`inputCompl`,
`outputCompl`), of which columns `0, …, numData - 1` are read. -/
def MCBM.computeGradientVal (m : MCBM D K F) (numData : ℕ) (input : ℕ → ℕ → ℝ)
    (output : ℕ → ℝ) (x : ℕ → ℝ) (p : Parameters) : ℝ :=
  batchSum (fun n => (m.setParameters x p).colLogLik (fun d => input d n) (output n))
      numData (effBatch p numData)
    / mcbmNormConst numData

/-- The gradient buffer written by `MCBM::computeGradient` when a gradient
pointer is supplied: each flagged group's accumulated gradient, laid out at
the group's running offset in column-major element order, with every written
entry divided by `normConst` (lines 380–406).  Entries beyond the written
prefix are never touched by the source; they are embedded as 0. -/
def MCBM.computeGradientGrad (m : MCBM D K F) (numData : ℕ) (input : ℕ → ℕ → ℝ)
    (output : ℕ → ℝ) (x : ℕ → ℝ) (p : Parameters) : ℕ → ℝ :=
  fun k =>
    (if k < offWeights D K F p then
      vecEntry (batchSum (fun n => (m.setParameters x p).colGradPriors
        (fun d => input d n) (output n)) numData (effBatch p numData)) k
    else if k < offFeatures D K F p then
      matEntry (batchSum (fun n => (m.setParameters x p).colGradWeights
        (fun d => input d n) (output n)) numData (effBatch p numData))
        (k - offWeights D K F p)
    else if k < offPredictors D K F p then
      matEntry (batchSum (fun n => (m.setParameters x p).colGradFeatures
        (fun d => input d n) (output n)) numData (effBatch p numData))
        (k - offFeatures D K F p)
    else if k < offInputBias D K F p then
      matEntry (batchSum (fun n => (m.setParameters x p).colGradPredictors
        (fun d => input d n) (output n)) numData (effBatch p numData))
        (k - offPredictors D K F p)
    else if k < offOutputBias D K F p then
      matEntry (batchSum (fun n => (m.setParameters x p).colGradInputBias
        (fun d => input d n) (output n)) numData (effBatch p numData))
        (k - offInputBias D K F p)
    else if k < numParameters D K F p then
      vecEntry (batchSum (fun n => (m.setParameters x p).colGradOutputBias
        (fun d => input d n) (output n)) numData (effBatch p numData))
        (k - offOutputBias D K F p)
    else 0) / mcbmNormConst numData

/-- `MCBM::computeGradient` as a pair: the returned value together with the
written gradient buffer. -/
def MCBM.computeGradient (m : MCBM D K F) (numData : ℕ) (input : ℕ → ℕ → ℝ)
    (output : ℕ → ℝ) (x : ℕ → ℝ) (p : Parameters) : ℝ × (ℕ → ℝ) :=
  (m.computeGradientVal numData input output x p,
   m.computeGradientGrad numData input output x p)

/-! ### Gradient checker -/

/-- One iteration of the finite-difference loop of `MCBM::checkGradient`
(`mcbm.cpp` lines 443–450), acting on the state `(y, numDiff)`: perturb
coordinate `i` of the working buffer up, evaluate, perturb down, evaluate,
restore `y[i] = x[i]`, and record the central difference. -/
def cgStep (f : (ℕ → ℝ) → ℝ) (x : ℕ → ℝ) (eps : ℝ)
    (s : (ℕ → ℝ) × (ℕ → ℝ)) (i : ℕ) : (ℕ → ℝ) × (ℕ → ℝ) :=
  (Function.update (Function.update (Function.update s.1 i (x i + eps)) i
      (x i - eps)) i (x i),
   Function.update s.2 i
     ((f (Function.update s.1 i (x i + eps))
        - f (Function.update (Function.update s.1 i (x i + eps)) i (x i - eps)))
       / (2 * eps)))

/-- The finite-difference loop over the given coordinates, started from the
copied buffer `y = x` and an arbitrary initial contents of the numerical
gradient array (the C++ array `n` is uninitialized stack memory; every entry
read later is written first). -/
def numGradLoop (f : (ℕ → ℝ) → ℝ) (x : ℕ → ℝ) (eps : ℝ) (idxs : List ℕ) :
    (ℕ → ℝ) × (ℕ → ℝ) :=
  idxs.foldl (cgStep f x eps) (x, fun _ => 0)

/-- `MCBM::checkGradient` (`mcbm.cpp` lines 413–461): copy the current
flagged parameters into a buffer, run the central finite-difference loop over
all flagged coordinates with the LBFGS objective (the value part of
`computeGradient`), evaluate the analytic gradient once at the base point,
and return the square root of the summed squared differences. -/
def MCBM.checkGradient (m : MCBM D K F) (numData : ℕ) (input : ℕ → ℕ → ℝ)
    (output : ℕ → ℝ) (eps : ℝ) (p : Parameters) : ℝ :=
  Real.sqrt (∑ i ∈ Finset.range (numParameters D K F p),
    (m.computeGradientGrad numData input output
        (fun k => (m.parameters p).getD k 0) p i
      - (numGradLoop (fun y => m.computeGradientVal numData input output y p)
          (fun k => (m.parameters p).getD k 0) eps
          (List.range (numParameters D K F p))).2 i) ^ 2)

/-! ### Vectorization-layer lemmas -/

/-- Length of a flattened vector. -/
@[simp] theorem flatVec_length {n : ℕ} (v : Fin n → ℝ) : (flatVec v).length = n := by
  simp [flatVec]

/-- Length of a flattened matrix. -/
@[simp] theorem flatMat_length {r c : ℕ} (M : Fin r → Fin c → ℝ) :
    (flatMat M).length = r * c := by
  simp [flatMat]

/-- Reading back entry `i` of a flattened vector. -/
theorem flatVec_getD {n : ℕ} (v : Fin n → ℝ) (i : Fin n) :
    (flatVec v).getD (i : ℕ) 0 = v i := by
  have hlen : (i : ℕ) < (flatVec v).length := by simp
  rw [List.getD_eq_getElem _ _ hlen]
  simp [flatVec, vecEntry, i.isLt]

/-- The column-major linear index of entry `(i, j)` is in range. -/
theorem matIdx_lt {r c : ℕ} (i : Fin r) (j : Fin c) : (j : ℕ) * r + i < r * c := by
  calc (j : ℕ) * r + i < (j : ℕ) * r + r := by omega
  _ = ((j : ℕ) + 1) * r := by ring
  _ ≤ c * r := Nat.mul_le_mul_right r j.isLt
  _ = r * c := Nat.mul_comm c r

/-- Reading back entry `(i, j)` of a column-major flattened matrix. -/
theorem flatMat_getD {r c : ℕ} (M : Fin r → Fin c → ℝ) (i : Fin r) (j : Fin c) :
    (flatMat M).getD ((j : ℕ) * r + i) 0 = M i j := by
  have hlen : (j : ℕ) * r + i < (flatMat M).length := by simpa using matIdx_lt i j
  rw [List.getD_eq_getElem _ _ hlen]
  have h1 : ((j : ℕ) * r + i) % r = i := by
    rw [Nat.add_comm, Nat.add_mul_mod_self_right]
    exact Nat.mod_eq_of_lt i.isLt
  have h2 : ((j : ℕ) * r + i) / r = j := by
    rw [Nat.add_comm, Nat.add_mul_div_right _ _ (Fin.pos i),
      Nat.div_eq_of_lt i.isLt, Nat.zero_add]
  simp [flatMat, matEntry, h1, h2, i.isLt, j.isLt]

/-- Reading an appended list past a full prefix. -/
theorem getD_append_offset (l₁ l₂ : List ℝ) (e : ℕ) :
    (l₁ ++ l₂).getD (l₁.length + e) 0 = l₂.getD e 0 := by
  rw [List.getD_append_right l₁ l₂ 0 _ (Nat.le_add_right _ _),
    Nat.add_sub_cancel_left]

/-- Reading past a conditionally present segment of known length. -/
theorem getD_condAppend (b : Bool) (n : ℕ) (l₁ l₂ : List ℝ) (e : ℕ)
    (h : l₁.length = n) :
    ((if b = true then l₁ else []) ++ l₂).getD ((if b = true then n else 0) + e) 0
      = l₂.getD e 0 := by
  cases b
  · simp
  · simpa [h.symm] using getD_append_offset l₁ l₂ e

/-- The buffer built by `MCBM::parameters` has exactly `numParameters`
entries. -/
theorem parameters_length (m : MCBM D K F) (p : Parameters) :
    (m.parameters p).length = numParameters D K F p := by
  unfold MCBM.parameters numParameters offOutputBias offInputBias offPredictors
    offFeatures offWeights
  cases hP : p.trainPriors <;> cases hW : p.trainWeights <;>
    cases hF : p.trainFeatures <;> cases hPr : p.trainPredictors <;>
    cases hIB : p.trainInputBias <;> cases hOB : p.trainOutputBias <;>
    simp <;> ring

/-- Reading the priors span of the buffer built by `parameters`. -/
theorem parameters_getD_priors (m : MCBM D K F) (p : Parameters)
    (hP : p.trainPriors = true) (i : Fin K) :
    (m.parameters p).getD (i : ℕ) 0 = m.priors i := by
  unfold MCBM.parameters
  rw [hP, if_pos rfl, List.getD_append _ _ _ _ (by simp [i.isLt])]
  exact flatVec_getD m.priors i

/-- Reading the weights span of the buffer built by `parameters`. -/
theorem parameters_getD_weights (m : MCBM D K F) (p : Parameters)
    (hW : p.trainWeights = true) (i : Fin K) (j : Fin F) :
    (m.parameters p).getD (offWeights D K F p + ((j : ℕ) * K + i)) 0
      = m.weights i j := by
  unfold MCBM.parameters offWeights
  rw [getD_condAppend _ _ _ _ _ (flatVec_length m.priors), hW, if_pos rfl,
    List.getD_append _ _ _ _ (by simpa using matIdx_lt i j)]
  exact flatMat_getD m.weights i j

/-- Reading the features span of the buffer built by `parameters`. -/
theorem parameters_getD_features (m : MCBM D K F) (p : Parameters)
    (hF : p.trainFeatures = true) (i : Fin D) (j : Fin F) :
    (m.parameters p).getD (offFeatures D K F p + ((j : ℕ) * D + i)) 0
      = m.features i j := by
  unfold MCBM.parameters offFeatures offWeights
  simp only [add_assoc]
  rw [getD_condAppend _ _ _ _ _ (flatVec_length m.priors),
    getD_condAppend _ _ _ _ _ (flatMat_length m.weights), hF, if_pos rfl,
    List.getD_append _ _ _ _ (by simpa using matIdx_lt i j)]
  exact flatMat_getD m.features i j

/-- Reading the predictors span of the buffer built by `parameters`. -/
theorem parameters_getD_predictors (m : MCBM D K F) (p : Parameters)
    (hPr : p.trainPredictors = true) (i : Fin K) (j : Fin D) :
    (m.parameters p).getD (offPredictors D K F p + ((j : ℕ) * K + i)) 0
      = m.predictors i j := by
  unfold MCBM.parameters offPredictors offFeatures offWeights
  simp only [add_assoc]
  rw [getD_condAppend _ _ _ _ _ (flatVec_length m.priors),
    getD_condAppend _ _ _ _ _ (flatMat_length m.weights),
    getD_condAppend _ _ _ _ _ (flatMat_length m.features), hPr, if_pos rfl,
    List.getD_append _ _ _ _ (by simpa using matIdx_lt i j)]
  exact flatMat_getD m.predictors i j

/-- Reading the inputBias span of the buffer built by `parameters`. -/
theorem parameters_getD_inputBias (m : MCBM D K F) (p : Parameters)
    (hIB : p.trainInputBias = true) (i : Fin D) (j : Fin K) :
    (m.parameters p).getD (offInputBias D K F p + ((j : ℕ) * D + i)) 0
      = m.inputBias i j := by
  unfold MCBM.parameters offInputBias offPredictors offFeatures offWeights
  simp only [add_assoc]
  rw [getD_condAppend _ _ _ _ _ (flatVec_length m.priors),
    getD_condAppend _ _ _ _ _ (flatMat_length m.weights),
    getD_condAppend _ _ _ _ _ (flatMat_length m.features),
    getD_condAppend _ _ _ _ _ (flatMat_length m.predictors), hIB, if_pos rfl,
    List.getD_append _ _ _ _ (by simpa using matIdx_lt i j)]
  exact flatMat_getD m.inputBias i j

/-- Reading the outputBias span of the buffer built by `parameters`. -/
theorem parameters_getD_outputBias (m : MCBM D K F) (p : Parameters)
    (hOB : p.trainOutputBias = true) (i : Fin K) :
    (m.parameters p).getD (offOutputBias D K F p + (i : ℕ)) 0
      = m.outputBias i := by
  unfold MCBM.parameters offOutputBias offInputBias offPredictors offFeatures
    offWeights
  simp only [add_assoc]
  rw [getD_condAppend _ _ _ _ _ (flatVec_length m.priors),
    getD_condAppend _ _ _ _ _ (flatMat_length m.weights),
    getD_condAppend _ _ _ _ _ (flatMat_length m.features),
    getD_condAppend _ _ _ _ _ (flatMat_length m.predictors),
    getD_condAppend _ _ _ _ _ (flatMat_length m.inputBias), hOB, if_pos rfl]
  exact flatVec_getD m.outputBias i

/-! ### Claim theorems: training stub, constructor, vectorization -/

/-- Claim C10: for every input/output pair and every training configuration,
the `train` entry point returns `false` and leaves every one of the six
parameter groups exactly unchanged: it performs no optimization at all. -/
theorem train_no_op {N : ℕ} (m : MCBM D K F) (input : Fin D → Fin N → ℤ)
    (output : Fin N → ℤ) (p : Parameters) :
    (m.train input output p).1 = false
    ∧ (m.train input output p).2 = m
    ∧ (m.train input output p).2.priors = m.priors
    ∧ (m.train input output p).2.weights = m.weights
    ∧ (m.train input output p).2.features = m.features
    ∧ (m.train input output p).2.predictors = m.predictors
    ∧ (m.train input output p).2.inputBias = m.inputBias
    ∧ (m.train input output p).2.outputBias = m.outputBias :=
  ⟨rfl, rfl, rfl, rfl, rfl, rfl, rfl, rfl⟩

/-- Counterexample to claim C6 as stated: `dimIn = 0` is below 1, yet the
constructor performs no check on `dimIn` — with `numComponents = 1` and
`numFeatures = 1` the hyperparameter validation raises no error. -/
theorem constructor_dimIn_unchecked :
    ((0 : ℤ) < 1) ∧ constructorError 0 1 1 = none := by
  refine ⟨by norm_num, ?_⟩
  rfl

/-- Claim C6 (amended): construction raises a constructor-time fatal
configuration error exactly when `numComponents < 1` or the effective
`numFeatures` (defaulting to `dimIn` when the argument is negative) is below
1; `dimIn` itself is not validated.  When no error is raised the initialized
state has `priors` and both biases zero and `weights` strictly positive,
whatever values the external random sources deliver. -/
theorem constructor_validation (dimIn numComponents numFeatures : ℤ) :
    (constructorError dimIn numComponents numFeatures = none ↔
      1 ≤ numComponents ∧ 1 ≤ (if numFeatures < 0 then dimIn else numFeatures))
    ∧ ∀ (rw : Fin K → Fin F → ℝ) (rf : Fin D → Fin F → ℝ)
        (rp : Fin K → Fin D → ℝ),
        (MCBM.construct rw rf rp : MCBM D K F).priors = (fun _ => 0)
        ∧ (MCBM.construct rw rf rp : MCBM D K F).inputBias = (fun _ _ => 0)
        ∧ (MCBM.construct rw rf rp : MCBM D K F).outputBias = (fun _ => 0)
        ∧ ∀ (c : Fin K) (f : Fin F),
            0 < (MCBM.construct rw rf rp : MCBM D K F).weights c f := by
  constructor
  · unfold constructorError
    split_ifs with h1 h2 <;> simp <;> omega
  · intro rw rf rp
    refine ⟨rfl, rfl, rfl, fun c f => ?_⟩
    have : (0 : ℝ) ≤ |rw c f| / 100 := by positivity
    simp only [MCBM.construct]
    nlinarith

/-- Claim C2: for valid positive shapes, any non-empty flag subset, and any
pair of models of identical shapes, `setParameters` applied to the buffer
produced by `parameters` reproduces every flagged group of the source model
exactly in the target model. -/
theorem setParameters_parameters_roundTrip (_hD : 1 ≤ D) (_hK : 1 ≤ K)
    (_hF : 1 ≤ F) (m m2 : MCBM D K F) (p : Parameters)
    (_hne : p.trainPriors = true ∨ p.trainWeights = true
      ∨ p.trainFeatures = true ∨ p.trainPredictors = true
      ∨ p.trainInputBias = true ∨ p.trainOutputBias = true) :
    (p.trainPriors = true →
      (m2.setParameters (fun k => (m.parameters p).getD k 0) p).priors = m.priors)
    ∧ (p.trainWeights = true →
      (m2.setParameters (fun k => (m.parameters p).getD k 0) p).weights = m.weights)
    ∧ (p.trainFeatures = true →
      (m2.setParameters (fun k => (m.parameters p).getD k 0) p).features = m.features)
    ∧ (p.trainPredictors = true →
      (m2.setParameters (fun k => (m.parameters p).getD k 0) p).predictors
        = m.predictors)
    ∧ (p.trainInputBias = true →
      (m2.setParameters (fun k => (m.parameters p).getD k 0) p).inputBias
        = m.inputBias)
    ∧ (p.trainOutputBias = true →
      (m2.setParameters (fun k => (m.parameters p).getD k 0) p).outputBias
        = m.outputBias) := by
  refine ⟨fun h => ?_, fun h => ?_, fun h => ?_, fun h => ?_, fun h => ?_,
    fun h => ?_⟩ <;> simp only [MCBM.setParameters, h, if_pos]
  · funext i
    simpa [readVec] using parameters_getD_priors m p h i
  · funext i j
    simpa [readMat] using parameters_getD_weights m p h i j
  · funext i j
    simpa [readMat] using parameters_getD_features m p h i j
  · funext i j
    simpa [readMat] using parameters_getD_predictors m p h i j
  · funext i j
    simpa [readMat] using parameters_getD_inputBias m p h i j
  · funext i
    simpa [readVec] using parameters_getD_outputBias m p h i

/-- A concrete all-zero model on the smallest valid shapes, used by the
concrete instantiations below. -/
def mZero : MCBM 1 1 1 where
  priors := fun _ => 0
  weights := fun _ _ => 0
  features := fun _ _ => 0
  predictors := fun _ _ => 0
  inputBias := fun _ _ => 0
  outputBias := fun _ => 0

/-- The default training configuration (all groups flagged). -/
def pAll : Parameters := {}

/-- Witness for claim C2 at the smallest valid shapes with all groups
flagged. -/
theorem setParameters_parameters_roundTrip_witness :
    (1 ≤ 1) ∧
    ((pAll.trainPriors = true →
      (mZero.setParameters (fun k => (mZero.parameters pAll).getD k 0) pAll).priors
        = mZero.priors)
    ∧ (pAll.trainWeights = true →
      (mZero.setParameters (fun k => (mZero.parameters pAll).getD k 0) pAll).weights
        = mZero.weights)
    ∧ (pAll.trainFeatures = true →
      (mZero.setParameters (fun k => (mZero.parameters pAll).getD k 0) pAll).features
        = mZero.features)
    ∧ (pAll.trainPredictors = true →
      (mZero.setParameters (fun k => (mZero.parameters pAll).getD k 0) pAll).predictors
        = mZero.predictors)
    ∧ (pAll.trainInputBias = true →
      (mZero.setParameters (fun k => (mZero.parameters pAll).getD k 0) pAll).inputBias
        = mZero.inputBias)
    ∧ (pAll.trainOutputBias = true →
      (mZero.setParameters (fun k => (mZero.parameters pAll).getD k 0) pAll).outputBias
        = mZero.outputBias)) :=
  ⟨le_refl 1,
    setParameters_parameters_roundTrip (le_refl 1) (le_refl 1) (le_refl 1)
      mZero mZero pAll (Or.inl rfl)⟩

/-- Claim C8: for every flag set and every flat buffer of the correct length,
`setParameters` assigns only the flagged groups; every group whose training
flag is unset retains exactly its previous value (the shapes of all six
groups are fixed by the type and therefore unchanged as well). -/
theorem setParameters_frame (m : MCBM D K F) (p : Parameters) (l : List ℝ)
    (_hlen : l.length = numParameters D K F p) :
    (p.trainPriors = false →
      (m.setParameters (fun k => l.getD k 0) p).priors = m.priors)
    ∧ (p.trainWeights = false →
      (m.setParameters (fun k => l.getD k 0) p).weights = m.weights)
    ∧ (p.trainFeatures = false →
      (m.setParameters (fun k => l.getD k 0) p).features = m.features)
    ∧ (p.trainPredictors = false →
      (m.setParameters (fun k => l.getD k 0) p).predictors = m.predictors)
    ∧ (p.trainInputBias = false →
      (m.setParameters (fun k => l.getD k 0) p).inputBias = m.inputBias)
    ∧ (p.trainOutputBias = false →
      (m.setParameters (fun k => l.getD k 0) p).outputBias = m.outputBias) := by
  refine ⟨fun h => ?_, fun h => ?_, fun h => ?_, fun h => ?_, fun h => ?_,
    fun h => ?_⟩ <;> simp [MCBM.setParameters, h]

/-- A training configuration with only the weights group left out. -/
def pNoWeights : Parameters := { trainWeights := false }

/-- Witness for claim C8: a buffer of the exact required length on the
smallest shapes, with the weights group unflagged. -/
theorem setParameters_frame_witness :
    ((List.replicate 5 (0 : ℝ)).length = numParameters 1 1 1 pNoWeights)
    ∧ (pNoWeights.trainWeights = false →
      (mZero.setParameters (fun k => (List.replicate 5 (0 : ℝ)).getD k 0)
        pNoWeights).weights = mZero.weights) :=
  ⟨rfl, (setParameters_frame mZero pNoWeights (List.replicate 5 0) rfl).2.1⟩

/-! ### Claim theorems: forward engine -/

/-- The two normalized conditional probabilities of any column sum to one:
`exp (logProb0 - logNorm) + exp (logProb1 - logNorm) = 1` because `logNorm`
is precisely `log (exp logProb0 + exp logProb1)`. -/
theorem exp_normLogProb_add (m : MCBM D K F) (u : Fin D → ℝ) :
    Real.exp (m.normLogProb0 u) + Real.exp (m.normLogProb1 u) = 1 := by
  unfold MCBM.normLogProb0 MCBM.normLogProb1 MCBM.logNorm
  rw [logSumExp2_eq]
  have hpos : (0 : ℝ) < Real.exp (m.logProb0 u) + Real.exp (m.logProb1 u) := by
    positivity
  rw [Real.exp_sub, Real.exp_sub, Real.exp_log hpos, div_add_div_same,
    div_self (ne_of_gt hpos)]

/-- Claim C5: for every input batch and every column, the normalized
conditional log-probabilities computed by the forward pass of
`logLikelihood` satisfy `exp (logProb0 - logNorm) + exp (logProb1 - logNorm)
= 1` exactly. -/
theorem logLikelihood_normalized_probabilities {N : ℕ} (m : MCBM D K F)
    (input : Fin D → Fin N → ℤ) (n : Fin N) :
    Real.exp (m.normLogProb0 (fun d => (input d n : ℝ)))
      + Real.exp (m.normLogProb1 (fun d => (input d n : ℝ))) = 1 :=
  exp_normLogProb_add m _

/-- Claim C7: `sample` draws each output bit from its own column alone: the
bit of column `n` is binary, and it is 1 exactly when the magnitude of the
`n`-th supplied random variate falls below
`exp (logProb1 - logNorm)` of column `n` — one draw per column, with no
dependence on any other column. -/
theorem sample_bernoulli_per_column {N : ℕ} (m : MCBM D K F)
    (input : Fin D → Fin N → ℤ) (r : Fin N → ℝ) (n : Fin N) :
    (m.sample input r n = 0 ∨ m.sample input r n = 1)
    ∧ (m.sample input r n = 1 ↔
        |r n| < Real.exp (m.normLogProb1 (fun d => (input d n : ℝ)))) := by
  unfold MCBM.sample
  split_ifs with h <;> simp [h]

/-! ### Claim theorems: normalization constant and batching -/

/-- Counterexample to claim C9 as stated: a zero-size batch is not rejected.
`computeGradient` has no error path at all; at `numData = 0` it runs to
completion (the batch loop body never executes) and performs the final
normalization with divisor `normConst = 0 / log 2 = 0`.  (In C++ this
division by zero yields NaN; in the exact-real embedding division by zero
yields 0, so the call returns 0 — the point is that a value is produced
rather than an error being raised.) -/
theorem computeGradient_zero_batch_processed :
    mcbmNormConst 0 = 0
    ∧ mZero.computeGradientVal 0 (fun _ _ => 0) (fun _ => 0) (fun _ => 0) pAll
      = 0 := by
  constructor
  · simp [mcbmNormConst]
  · simp [MCBM.computeGradientVal, batchSum, batchLoop]

/-- Claim C9 (amended): a gradient/likelihood evaluation requires a batch
with at least one column as a caller precondition: for every `numData ≥ 1`
the final normalization of `computeGradient` divides by the nonzero constant
`numData / ln 2`.  A zero-size batch is not rejected by the code — there is
no error path, and at `numData = 0` the final division's divisor is 0 — so
the division-by-zero is avoided only under the precondition `numData ≥ 1`. -/
theorem computeGradient_normConst_nonzero (numData : ℕ) (h : 1 ≤ numData) :
    mcbmNormConst numData ≠ 0
    ∧ ∀ (m : MCBM D K F) (input : ℕ → ℕ → ℝ) (output : ℕ → ℝ) (x : ℕ → ℝ)
        (p : Parameters),
        m.computeGradientVal numData input output x p
          = batchSum (fun n => (m.setParameters x p).colLogLik
              (fun d => input d n) (output n)) numData (effBatch p numData)
            / mcbmNormConst numData := by
  constructor
  · unfold mcbmNormConst
    have hN : (numData : ℝ) ≠ 0 := Nat.cast_ne_zero.mpr (by omega)
    have hlog : Real.log 2 ≠ 0 :=
      ne_of_gt (Real.log_pos (by norm_num))
    exact div_ne_zero hN hlog
  · intro m input output x p
    rfl

/-- Witness for claim C9 (amended) at `numData = 1`. -/
theorem computeGradient_normConst_nonzero_witness :
    (1 ≤ 1) ∧ (mcbmNormConst 1 ≠ 0
    ∧ ∀ (m : MCBM 1 1 1) (input : ℕ → ℕ → ℝ) (output : ℕ → ℝ) (x : ℕ → ℝ)
        (p : Parameters),
        m.computeGradientVal 1 input output x p
          = batchSum (fun n => (m.setParameters x p).colLogLik
              (fun d => input d n) (output n)) 1 (effBatch p 1)
            / mcbmNormConst 1) :=
  ⟨le_refl 1, computeGradient_normConst_nonzero 1 (le_refl 1)⟩

/-- Claim C4: with any two positive batch sizes not exceeding the column
count, `computeGradient` produces the identical value and the identical
gradient buffer (exact arithmetic): the batched accumulation over contiguous
column slices followed by the single final division is independent of the
batch size. -/
theorem computeGradient_batch_invariance (m : MCBM D K F) (numData : ℕ)
    (input : ℕ → ℕ → ℝ) (output : ℕ → ℝ) (x : ℕ → ℝ) (p : Parameters)
    (b b' : ℕ) (hb1 : 1 ≤ b) (hbN : b ≤ numData) (hb'1 : 1 ≤ b')
    (hb'N : b' ≤ numData) :
    m.computeGradientVal numData input output x { p with batchSize := b }
      = m.computeGradientVal numData input output x { p with batchSize := b' }
    ∧ m.computeGradientGrad numData input output x { p with batchSize := b }
      = m.computeGradientGrad numData input output x { p with batchSize := b' } := by
  have e : ∀ (q : Parameters), 1 ≤ q.batchSize →
      ∀ {M : Type} [AddCommMonoid M] (f : ℕ → M),
      batchSum f numData (effBatch q numData) = ∑ n ∈ Finset.range numData, f n := by
    intro q hq M _ f
    refine batchSum_eq f numData _ ?_
    unfold effBatch
    omega
  constructor
  · unfold MCBM.computeGradientVal
    rw [e { p with batchSize := b } hb1, e { p with batchSize := b' } hb'1]
    rfl
  · unfold MCBM.computeGradientGrad
    funext k
    simp only [e { p with batchSize := b } hb1, e { p with batchSize := b' } hb'1]
    rfl

/-- Witness for claim C4: two columns, batch sizes 1 and 2. -/
theorem computeGradient_batch_invariance_witness :
    ((1 ≤ 1) ∧ (1 ≤ 2) ∧ (2 ≤ 2))
    ∧ (mZero.computeGradientVal 2 (fun _ _ => 0) (fun _ => 0) (fun _ => 0)
        { pAll with batchSize := 1 }
      = mZero.computeGradientVal 2 (fun _ _ => 0) (fun _ => 0) (fun _ => 0)
        { pAll with batchSize := 2 }
    ∧ mZero.computeGradientGrad 2 (fun _ _ => 0) (fun _ => 0) (fun _ => 0)
        { pAll with batchSize := 1 }
      = mZero.computeGradientGrad 2 (fun _ _ => 0) (fun _ => 0) (fun _ => 0)
        { pAll with batchSize := 2 }) :=
  ⟨⟨le_refl 1, by norm_num, le_refl 2⟩,
    computeGradient_batch_invariance mZero 2 (fun _ _ => 0) (fun _ => 0)
      (fun _ => 0) pAll 1 2 (le_refl 1) (by norm_num) (by norm_num) (le_refl 2)⟩

/-! ### Claim theorems: gradient checker -/

/-- The central finite difference of `f` at `x` in coordinate `i` with step
`eps`, every other coordinate held at the base point. -/
def centralDiff (f : (ℕ → ℝ) → ℝ) (x : ℕ → ℝ) (eps : ℝ) (i : ℕ) : ℝ :=
  (f (Function.update x i (x i + eps)) - f (Function.update x i (x i - eps)))
    / (2 * eps)

/-- The finite-difference loop restores the working buffer to the base point
after every iteration, so each recorded entry is the central difference
taken with all other coordinates at the base point. -/
theorem numGradLoop_spec (f : (ℕ → ℝ) → ℝ) (x : ℕ → ℝ) (eps : ℝ) :
    ∀ (l : List ℕ) (nd : ℕ → ℝ),
      (l.foldl (cgStep f x eps) (x, nd)).1 = x
      ∧ (l.foldl (cgStep f x eps) (x, nd)).2
        = fun i => if i ∈ l then centralDiff f x eps i else nd i := by
  intro l
  induction l with
  | nil =>
    intro nd
    exact ⟨rfl, by funext i; simp⟩
  | cons a l ih =>
    intro nd
    have hstep : cgStep f x eps (x, nd) a
        = (x, Function.update nd a (centralDiff f x eps a)) := by
      unfold cgStep centralDiff
      simp only [Function.update_idem]
      rw [Function.update_eq_self]
    rw [List.foldl_cons, hstep]
    refine ⟨(ih _).1, ?_⟩
    rw [(ih _).2]
    funext i
    by_cases hl : i ∈ l
    · simp [hl]
    · by_cases ha : i = a
      · subst ha
        simp [hl]
      · simp [hl, ha, Function.update_apply]

/-- Claim C3: `checkGradient` returns the Euclidean norm of the elementwise
difference between the analytic gradient, evaluated once at the base point,
and the vector of central finite differences of the objective, each taken
with every other coordinate restored to the base point. -/
theorem checkGradient_central_difference (m : MCBM D K F) (numData : ℕ)
    (input : ℕ → ℕ → ℝ) (output : ℕ → ℝ) (eps : ℝ) (p : Parameters) :
    m.checkGradient numData input output eps p
      = Real.sqrt (∑ i ∈ Finset.range (numParameters D K F p),
          (m.computeGradientGrad numData input output
              (fun k => (m.parameters p).getD k 0) p i
            - centralDiff
                (fun y => m.computeGradientVal numData input output y p)
                (fun k => (m.parameters p).getD k 0) eps i) ^ 2) := by
  unfold MCBM.checkGradient numGradLoop
  rw [(numGradLoop_spec _ _ _ _ _).2]
  congr 1
  refine Finset.sum_congr rfl fun i hi => ?_
  simp [List.mem_range, Finset.mem_range.mp hi]

/-! ### Gradient-correctness infrastructure

The remaining development establishes that the buffer written by
`computeGradient` consists, coordinate by coordinate, of the derivatives of
the returned value with respect to the corresponding flat-buffer coordinate.
-/

/-- Column-major linear indices determine the entry: the encoding
`(a, b) ↦ b * r + a` with `a < r` is injective. -/
theorem matIdx_inj {r : ℕ} (a a' : Fin r) (b b' : ℕ) :
    (b' * r + a' = b * r + a) ↔ (b' = b ∧ (a' : ℕ) = a) := by
  constructor
  · intro h
    have ha : (a' : ℕ) = a := by
      have h' := congrArg (· % r) h
      simpa [Nat.add_comm, Nat.add_mul_mod_self_right, Nat.mod_eq_of_lt a.isLt,
        Nat.mod_eq_of_lt a'.isLt] using h'
    refine ⟨?_, ha⟩
    rw [ha] at h
    have hr : 0 < r := Fin.pos a
    have := Nat.add_right_cancel h
    exact Nat.eq_of_mul_eq_mul_right hr this
  · rintro ⟨hb, ha⟩
    rw [hb, ha]

/-- Updating a buffer coordinate outside a vector's span leaves the read
vector unchanged. -/
theorem readVec_update_ne (x : ℕ → ℝ) (off n i : ℕ) (t : ℝ)
    (h : ∀ j : Fin n, off + (j : ℕ) ≠ i) :
    readVec (Function.update x i t) off n = readVec x off n := by
  funext j
  unfold readVec
  rw [Function.update_noteq (h j)]

/-- Updating a buffer coordinate outside a matrix's span leaves the read
matrix unchanged. -/
theorem readMat_update_ne (x : ℕ → ℝ) (off r c i : ℕ) (t : ℝ)
    (h : ∀ (a : Fin r) (b : Fin c), off + ((b : ℕ) * r + a) ≠ i) :
    readMat (Function.update x i t) off r c = readMat x off r c := by
  funext a b
  unfold readMat
  rw [Function.update_noteq (h a b)]

/-- Updating the buffer coordinate of entry `(a, b)` of a read vector span
updates exactly that entry. -/
theorem readVec_update_eq (x : ℕ → ℝ) (off : ℕ) {n : ℕ} (j : Fin n) (t : ℝ) :
    readVec (Function.update x (off + (j : ℕ)) t) off n
      = fun j' => if j' = j then t else readVec x off n j' := by
  funext j'
  unfold readVec
  rcases eq_or_ne j' j with h | h
  · rw [h, Function.update_same, if_pos rfl]
  · rw [if_neg h, Function.update_noteq (by
      intro hc
      exact h (Fin.ext (by omega)))]

/-- Updating the buffer coordinate of entry `(a, b)` of a read matrix span
updates exactly that entry. -/
theorem readMat_update_eq (x : ℕ → ℝ) (off : ℕ) {r c : ℕ} (a : Fin r)
    (b : Fin c) (t : ℝ) :
    readMat (Function.update x (off + ((b : ℕ) * r + a)) t) off r c
      = fun a' b' => if a' = a ∧ b' = b then t else readMat x off r c a' b' := by
  funext a' b'
  unfold readMat
  by_cases h : a' = a ∧ b' = b
  · rw [if_pos h, h.1, h.2, Function.update_same]
  · rw [if_neg h, Function.update_noteq (by
      intro hc
      have := (matIdx_inj a a' (b : ℕ) (b' : ℕ)).mp (by omega)
      exact h ⟨Fin.ext this.2, Fin.ext (by exact_mod_cast this.1)⟩)]

/-- The offsets are monotone along the fixed group order. -/
theorem offFeatures_ge (p : Parameters) :
    offWeights D K F p ≤ offFeatures D K F p := Nat.le_add_right _ _

/-- The offsets are monotone along the fixed group order. -/
theorem offPredictors_ge (p : Parameters) :
    offFeatures D K F p ≤ offPredictors D K F p := Nat.le_add_right _ _

/-- The offsets are monotone along the fixed group order. -/
theorem offInputBias_ge (p : Parameters) :
    offPredictors D K F p ≤ offInputBias D K F p := Nat.le_add_right _ _

/-- The offsets are monotone along the fixed group order. -/
theorem offOutputBias_ge (p : Parameters) :
    offInputBias D K F p ≤ offOutputBias D K F p := Nat.le_add_right _ _

/-- The offsets are monotone along the fixed group order. -/
theorem numParameters_ge (p : Parameters) :
    offOutputBias D K F p ≤ numParameters D K F p := Nat.le_add_right _ _

/-- Derivative of a stabilized log-sum-exp of differentiable component
functions: the softmax-weighted combination of the component derivatives. -/
theorem hasDerivAt_logSumExp {K : ℕ} (hK : 0 < K) (s : Fin K → ℝ → ℝ)
    (s' : Fin K → ℝ) (t : ℝ) (hs : ∀ c, HasDerivAt (fun r => s c r) (s' c) t) :
    HasDerivAt (fun r => logSumExp (fun c => s c r))
      (∑ c, Real.exp (s c t - logSumExp (fun c => s c t)) * s' c) t := by
  have hrw : (fun r => logSumExp (fun c => s c r))
      = fun r => Real.log (∑ c, Real.exp (s c r)) :=
    funext fun r => logSumExp_eq hK _
  rw [hrw]
  have hsum : HasDerivAt (fun r => ∑ c, Real.exp (s c r))
      (∑ c, Real.exp (s c t) * s' c) t :=
    HasDerivAt.sum (fun c _ => (hs c).exp)
  have hne : (Finset.univ : Finset (Fin K)).Nonempty := by
    simpa [Finset.univ_nonempty_iff] using Fin.pos_iff_nonempty.mp hK
  have hpos : (0 : ℝ) < ∑ c, Real.exp (s c t) :=
    Finset.sum_pos (fun c _ => Real.exp_pos _) hne
  have hlog := hsum.log (ne_of_gt hpos)
  convert hlog using 1
  rw [logSumExp_eq hK, Finset.sum_div]
  refine Finset.sum_congr rfl fun c _ => ?_
  rw [Real.exp_sub, Real.exp_log hpos, div_mul_eq_mul_div]

/-- Derivative of the binary stabilized log-sum-exp of two differentiable
functions. -/
theorem hasDerivAt_logSumExp2 (a b : ℝ → ℝ) (a' b' t : ℝ)
    (ha : HasDerivAt a a' t) (hb : HasDerivAt b b' t) :
    HasDerivAt (fun r => logSumExp2 (a r) (b r))
      (Real.exp (a t - logSumExp2 (a t) (b t)) * a'
        + Real.exp (b t - logSumExp2 (a t) (b t)) * b') t := by
  have hrw : (fun r => logSumExp2 (a r) (b r))
      = fun r => Real.log (Real.exp (a r) + Real.exp (b r)) :=
    funext fun r => logSumExp2_eq _ _
  rw [hrw]
  have hsum : HasDerivAt (fun r => Real.exp (a r) + Real.exp (b r))
      (Real.exp (a t) * a' + Real.exp (b t) * b') t := (ha.exp).add (hb.exp)
  have hpos : (0 : ℝ) < Real.exp (a t) + Real.exp (b t) := by positivity
  have hlog := hsum.log (ne_of_gt hpos)
  convert hlog using 1
  rw [logSumExp2_eq, Real.exp_sub, Real.exp_sub, Real.exp_log hpos, add_div,
    div_mul_eq_mul_div, div_mul_eq_mul_div]

/-- Master per-column derivative: if along a parameter path `mm` the two
per-component log-score vectors have derivatives `s0'` and `s1'`, the
per-column conditional log-likelihood has derivative
`tmp * (Σ post1 * s1' - Σ post0 * s0')` — which is exactly the shape of every
per-column gradient contribution accumulated by `computeGradient`. -/
theorem colLogLik_hasDerivAt (hK : 0 < K) (mm : ℝ → MCBM D K F)
    (u : Fin D → ℝ) (y t : ℝ) (s0' s1' : Fin K → ℝ)
    (h0 : ∀ c, HasDerivAt (fun r => (mm r).logPost0 u c) (s0' c) t)
    (h1 : ∀ c, HasDerivAt (fun r => (mm r).logPost1 u c) (s1' c) t) :
    HasDerivAt (fun r => (mm r).colLogLik u y)
      ((mm t).colTmp u y *
        ((∑ c, (mm t).post1 u c * s1' c) - (∑ c, (mm t).post0 u c * s0' c))) t := by
  have hpr0 : HasDerivAt (fun r => (mm r).logProb0 u)
      (∑ c, (mm t).post0 u c * s0' c) t := by
    have := hasDerivAt_logSumExp hK (fun c r => (mm r).logPost0 u c) s0' t h0
    simpa [MCBM.logProb0, MCBM.post0] using this
  have hpr1 : HasDerivAt (fun r => (mm r).logProb1 u)
      (∑ c, (mm t).post1 u c * s1' c) t := by
    have := hasDerivAt_logSumExp hK (fun c r => (mm r).logPost1 u c) s1' t h1
    simpa [MCBM.logProb1, MCBM.post1] using this
  have hLN : HasDerivAt (fun r => (mm r).logNorm u)
      (Real.exp ((mm t).normLogProb0 u) * (∑ c, (mm t).post0 u c * s0' c)
        + Real.exp ((mm t).normLogProb1 u) * (∑ c, (mm t).post1 u c * s1' c)) t := by
    have := hasDerivAt_logSumExp2 (fun r => (mm r).logProb0 u)
      (fun r => (mm r).logProb1 u) _ _ t hpr0 hpr1
    simpa [MCBM.logNorm, MCBM.normLogProb0, MCBM.normLogProb1] using this
  have hE : Real.exp ((mm t).normLogProb0 u) + Real.exp ((mm t).normLogProb1 u) = 1 :=
    exp_normLogProb_add (mm t) u
  have hcombined : HasDerivAt (fun r => y * ((mm r).logProb1 u - (mm r).logNorm u)
      + (1 - y) * ((mm r).logProb0 u - (mm r).logNorm u))
      (y * ((∑ c, (mm t).post1 u c * s1' c)
          - (Real.exp ((mm t).normLogProb0 u) * (∑ c, (mm t).post0 u c * s0' c)
            + Real.exp ((mm t).normLogProb1 u) * (∑ c, (mm t).post1 u c * s1' c)))
        + (1 - y) * ((∑ c, (mm t).post0 u c * s0' c)
          - (Real.exp ((mm t).normLogProb0 u) * (∑ c, (mm t).post0 u c * s0' c)
            + Real.exp ((mm t).normLogProb1 u) * (∑ c, (mm t).post1 u c * s1' c)))) t :=
    ((hpr1.sub hLN).const_mul y).add ((hpr0.sub hLN).const_mul (1 - y))
  have hfun : (fun r => (mm r).colLogLik u y)
      = fun r => y * ((mm r).logProb1 u - (mm r).logNorm u)
        + (1 - y) * ((mm r).logProb0 u - (mm r).logNorm u) := by
    funext r
    rfl
  rw [hfun]
  convert hcombined using 1
  unfold MCBM.colTmp
  set E0 := Real.exp ((mm t).normLogProb0 u)
  set E1 := Real.exp ((mm t).normLogProb1 u)
  set A0 := ∑ c, (mm t).post0 u c * s0' c
  set A1 := ∑ c, (mm t).post1 u c * s1' c
  linear_combination (y * A1 + (1 - y) * A0) * hE

/-- Decoding a column-major linear index inside `matEntry`. -/
theorem matEntry_encode {r c : ℕ} (X : Fin r → Fin c → ℝ) (a : Fin r) (b : Fin c) :
    matEntry X ((b : ℕ) * r + a) = X a b := by
  have h1 : ((b : ℕ) * r + a) % r = a := by
    rw [Nat.add_comm, Nat.add_mul_mod_self_right]
    exact Nat.mod_eq_of_lt a.isLt
  have h2 : ((b : ℕ) * r + a) / r = b := by
    rw [Nat.add_comm, Nat.add_mul_div_right _ _ (Fin.pos a),
      Nat.div_eq_of_lt a.isLt, Nat.zero_add]
  simp [matEntry, h1, h2, a.isLt, b.isLt]

/-- Decoding a linear index inside `vecEntry`. -/
theorem vecEntry_encode {n : ℕ} (X : Fin n → ℝ) (j : Fin n) :
    vecEntry X (j : ℕ) = X j := by
  simp [vecEntry, j.isLt]

/-- If every column's conditional log-likelihood is differentiable along a
one-coordinate perturbation of the flat buffer, the value returned by
`computeGradient` is differentiable with the normalized summed derivative. -/
theorem cgVal_hasDerivAt_of_cols (m : MCBM D K F) (numData : ℕ)
    (input : ℕ → ℕ → ℝ) (output : ℕ → ℝ) (x : ℕ → ℝ) (p : Parameters)
    (hN : 1 ≤ numData) (hB : 1 ≤ p.batchSize) (i : ℕ) (t : ℝ) (g : ℕ → ℝ)
    (hcols : ∀ n, HasDerivAt (fun r =>
        (m.setParameters (Function.update x i r) p).colLogLik
          (fun d => input d n) (output n)) (g n) t) :
    HasDerivAt (fun r =>
        m.computeGradientVal numData input output (Function.update x i r) p)
      ((∑ n ∈ Finset.range numData, g n) / mcbmNormConst numData) t := by
  have hfun : (fun r =>
        m.computeGradientVal numData input output (Function.update x i r) p)
      = fun r => (∑ n ∈ Finset.range numData,
          (m.setParameters (Function.update x i r) p).colLogLik
            (fun d => input d n) (output n)) / mcbmNormConst numData := by
    funext r
    unfold MCBM.computeGradientVal
    rw [batchSum_eq _ _ _ (by unfold effBatch; omega)]
  rw [hfun]
  exact (HasDerivAt.sum (fun n _ => hcols n)).div_const _

/-- Perturbing the flat-buffer coordinate of priors entry `c₀` changes the
resolved parameter views in exactly that entry (the priors group is laid out
first, at offset 0). -/
theorem setParameters_update_priors (m : MCBM D K F) (p : Parameters)
    (x : ℕ → ℝ) (hP : p.trainPriors = true) (c₀ : Fin K) (t : ℝ) :
    (m.setParameters (Function.update x (c₀ : ℕ) t) p).priors
        = (fun c => if c = c₀ then t else (m.setParameters x p).priors c)
    ∧ (m.setParameters (Function.update x (c₀ : ℕ) t) p).weights
        = (m.setParameters x p).weights
    ∧ (m.setParameters (Function.update x (c₀ : ℕ) t) p).features
        = (m.setParameters x p).features
    ∧ (m.setParameters (Function.update x (c₀ : ℕ) t) p).predictors
        = (m.setParameters x p).predictors
    ∧ (m.setParameters (Function.update x (c₀ : ℕ) t) p).inputBias
        = (m.setParameters x p).inputBias
    ∧ (m.setParameters (Function.update x (c₀ : ℕ) t) p).outputBias
        = (m.setParameters x p).outputBias := by
  have hoffW : offWeights D K F p = K := by simp [offWeights, hP]
  have hoffF := offFeatures_ge (D := D) (K := K) (F := F) p
  have hoffPr := offPredictors_ge (D := D) (K := K) (F := F) p
  have hoffIB := offInputBias_ge (D := D) (K := K) (F := F) p
  have hoffOB := offOutputBias_ge (D := D) (K := K) (F := F) p
  refine ⟨?_, ?_, ?_, ?_, ?_, ?_⟩ <;> simp only [MCBM.setParameters]
  · rw [hP, if_pos rfl, if_pos rfl]
    have := readVec_update_eq x 0 c₀ t
    simpa using this
  · by_cases hW : p.trainWeights = true
    · rw [hW, if_pos rfl, if_pos rfl,
        readMat_update_ne _ _ _ _ _ _ (fun a b => by
          have := matIdx_lt a b
          have hc := c₀.isLt
          omega)]
    · simp [hW]
  · by_cases hF : p.trainFeatures = true
    · rw [hF, if_pos rfl, if_pos rfl,
        readMat_update_ne _ _ _ _ _ _ (fun a b => by
          have := matIdx_lt a b
          have hc := c₀.isLt
          omega)]
    · simp [hF]
  · by_cases hPr : p.trainPredictors = true
    · rw [hPr, if_pos rfl, if_pos rfl,
        readMat_update_ne _ _ _ _ _ _ (fun a b => by
          have := matIdx_lt a b
          have hc := c₀.isLt
          omega)]
    · simp [hPr]
  · by_cases hIB : p.trainInputBias = true
    · rw [hIB, if_pos rfl, if_pos rfl,
        readMat_update_ne _ _ _ _ _ _ (fun a b => by
          have := matIdx_lt a b
          have hc := c₀.isLt
          omega)]
    · simp [hIB]
  · by_cases hOB : p.trainOutputBias = true
    · rw [hOB, if_pos rfl, if_pos rfl,
        readVec_update_ne _ _ _ _ _ (fun j => by
          have := j.isLt
          have hc := c₀.isLt
          omega)]
    · simp [hOB]

/-- Perturbing the flat-buffer coordinate of weights entry `(c₀, f₀)` changes
the resolved parameter views in exactly that entry. -/
theorem setParameters_update_weights (m : MCBM D K F) (p : Parameters)
    (x : ℕ → ℝ) (hW : p.trainWeights = true) (c₀ : Fin K) (f₀ : Fin F) (t : ℝ) :
    (m.setParameters (Function.update x
        (offWeights D K F p + ((f₀ : ℕ) * K + c₀)) t) p).priors
        = (m.setParameters x p).priors
    ∧ (m.setParameters (Function.update x
        (offWeights D K F p + ((f₀ : ℕ) * K + c₀)) t) p).weights
        = (fun c f => if c = c₀ ∧ f = f₀ then t
            else (m.setParameters x p).weights c f)
    ∧ (m.setParameters (Function.update x
        (offWeights D K F p + ((f₀ : ℕ) * K + c₀)) t) p).features
        = (m.setParameters x p).features
    ∧ (m.setParameters (Function.update x
        (offWeights D K F p + ((f₀ : ℕ) * K + c₀)) t) p).predictors
        = (m.setParameters x p).predictors
    ∧ (m.setParameters (Function.update x
        (offWeights D K F p + ((f₀ : ℕ) * K + c₀)) t) p).inputBias
        = (m.setParameters x p).inputBias
    ∧ (m.setParameters (Function.update x
        (offWeights D K F p + ((f₀ : ℕ) * K + c₀)) t) p).outputBias
        = (m.setParameters x p).outputBias := by
  have henc : (f₀ : ℕ) * K + c₀ < K * F := matIdx_lt c₀ f₀
  have hoffFeq : offFeatures D K F p = offWeights D K F p + K * F := by
    simp [offFeatures, hW]
  have hoffPr := offPredictors_ge (D := D) (K := K) (F := F) p
  have hoffIB := offInputBias_ge (D := D) (K := K) (F := F) p
  have hoffOB := offOutputBias_ge (D := D) (K := K) (F := F) p
  refine ⟨?_, ?_, ?_, ?_, ?_, ?_⟩ <;> simp only [MCBM.setParameters]
  · by_cases hP : p.trainPriors = true
    · have hoffW : offWeights D K F p = K := by simp [offWeights, hP]
      rw [hP, if_pos rfl, if_pos rfl,
        readVec_update_ne _ _ _ _ _ (fun j => by have := j.isLt; omega)]
    · simp [hP]
  · rw [hW, if_pos rfl, if_pos rfl, readMat_update_eq x _ c₀ f₀ t]
  · by_cases hF : p.trainFeatures = true
    · rw [hF, if_pos rfl, if_pos rfl,
        readMat_update_ne _ _ _ _ _ _ (fun a b => by
          have := matIdx_lt a b; omega)]
    · simp [hF]
  · by_cases hPr : p.trainPredictors = true
    · rw [hPr, if_pos rfl, if_pos rfl,
        readMat_update_ne _ _ _ _ _ _ (fun a b => by
          have := matIdx_lt a b; omega)]
    · simp [hPr]
  · by_cases hIB : p.trainInputBias = true
    · rw [hIB, if_pos rfl, if_pos rfl,
        readMat_update_ne _ _ _ _ _ _ (fun a b => by
          have := matIdx_lt a b; omega)]
    · simp [hIB]
  · by_cases hOB : p.trainOutputBias = true
    · rw [hOB, if_pos rfl, if_pos rfl,
        readVec_update_ne _ _ _ _ _ (fun j => by have := j.isLt; omega)]
    · simp [hOB]

/-- Perturbing the flat-buffer coordinate of features entry `(d₀, f₀)`
changes the resolved parameter views in exactly that entry. -/
theorem setParameters_update_features (m : MCBM D K F) (p : Parameters)
    (x : ℕ → ℝ) (hF : p.trainFeatures = true) (d₀ : Fin D) (f₀ : Fin F) (t : ℝ) :
    (m.setParameters (Function.update x
        (offFeatures D K F p + ((f₀ : ℕ) * D + d₀)) t) p).priors
        = (m.setParameters x p).priors
    ∧ (m.setParameters (Function.update x
        (offFeatures D K F p + ((f₀ : ℕ) * D + d₀)) t) p).weights
        = (m.setParameters x p).weights
    ∧ (m.setParameters (Function.update x
        (offFeatures D K F p + ((f₀ : ℕ) * D + d₀)) t) p).features
        = (fun d f => if d = d₀ ∧ f = f₀ then t
            else (m.setParameters x p).features d f)
    ∧ (m.setParameters (Function.update x
        (offFeatures D K F p + ((f₀ : ℕ) * D + d₀)) t) p).predictors
        = (m.setParameters x p).predictors
    ∧ (m.setParameters (Function.update x
        (offFeatures D K F p + ((f₀ : ℕ) * D + d₀)) t) p).inputBias
        = (m.setParameters x p).inputBias
    ∧ (m.setParameters (Function.update x
        (offFeatures D K F p + ((f₀ : ℕ) * D + d₀)) t) p).outputBias
        = (m.setParameters x p).outputBias := by
  have henc : (f₀ : ℕ) * D + d₀ < D * F := matIdx_lt d₀ f₀
  have hoffF := offFeatures_ge (D := D) (K := K) (F := F) p
  have hoffPreq : offPredictors D K F p = offFeatures D K F p + D * F := by
    simp [offPredictors, hF]
  have hoffIB := offInputBias_ge (D := D) (K := K) (F := F) p
  have hoffOB := offOutputBias_ge (D := D) (K := K) (F := F) p
  refine ⟨?_, ?_, ?_, ?_, ?_, ?_⟩ <;> simp only [MCBM.setParameters]
  · by_cases hP : p.trainPriors = true
    · have hoffW : offWeights D K F p = K := by simp [offWeights, hP]
      rw [hP, if_pos rfl, if_pos rfl,
        readVec_update_ne _ _ _ _ _ (fun j => by have := j.isLt; omega)]
    · simp [hP]
  · by_cases hW : p.trainWeights = true
    · have hoffFeq : offFeatures D K F p = offWeights D K F p + K * F := by
        simp [offFeatures, hW]
      rw [hW, if_pos rfl, if_pos rfl,
        readMat_update_ne _ _ _ _ _ _ (fun a b => by
          have := matIdx_lt a b; omega)]
    · simp [hW]
  · rw [hF, if_pos rfl, if_pos rfl, readMat_update_eq x _ d₀ f₀ t]
  · by_cases hPr : p.trainPredictors = true
    · rw [hPr, if_pos rfl, if_pos rfl,
        readMat_update_ne _ _ _ _ _ _ (fun a b => by
          have := matIdx_lt a b; omega)]
    · simp [hPr]
  · by_cases hIB : p.trainInputBias = true
    · rw [hIB, if_pos rfl, if_pos rfl,
        readMat_update_ne _ _ _ _ _ _ (fun a b => by
          have := matIdx_lt a b; omega)]
    · simp [hIB]
  · by_cases hOB : p.trainOutputBias = true
    · rw [hOB, if_pos rfl, if_pos rfl,
        readVec_update_ne _ _ _ _ _ (fun j => by have := j.isLt; omega)]
    · simp [hOB]

/-- Perturbing the flat-buffer coordinate of predictors entry `(c₀, d₀)`
changes the resolved parameter views in exactly that entry. -/
theorem setParameters_update_predictors (m : MCBM D K F) (p : Parameters)
    (x : ℕ → ℝ) (hPr : p.trainPredictors = true) (c₀ : Fin K) (d₀ : Fin D)
    (t : ℝ) :
    (m.setParameters (Function.update x
        (offPredictors D K F p + ((d₀ : ℕ) * K + c₀)) t) p).priors
        = (m.setParameters x p).priors
    ∧ (m.setParameters (Function.update x
        (offPredictors D K F p + ((d₀ : ℕ) * K + c₀)) t) p).weights
        = (m.setParameters x p).weights
    ∧ (m.setParameters (Function.update x
        (offPredictors D K F p + ((d₀ : ℕ) * K + c₀)) t) p).features
        = (m.setParameters x p).features
    ∧ (m.setParameters (Function.update x
        (offPredictors D K F p + ((d₀ : ℕ) * K + c₀)) t) p).predictors
        = (fun c d => if c = c₀ ∧ d = d₀ then t
            else (m.setParameters x p).predictors c d)
    ∧ (m.setParameters (Function.update x
        (offPredictors D K F p + ((d₀ : ℕ) * K + c₀)) t) p).inputBias
        = (m.setParameters x p).inputBias
    ∧ (m.setParameters (Function.update x
        (offPredictors D K F p + ((d₀ : ℕ) * K + c₀)) t) p).outputBias
        = (m.setParameters x p).outputBias := by
  have henc : (d₀ : ℕ) * K + c₀ < K * D := matIdx_lt c₀ d₀
  have hoffF := offFeatures_ge (D := D) (K := K) (F := F) p
  have hoffPr := offPredictors_ge (D := D) (K := K) (F := F) p
  have hoffIBeq : offInputBias D K F p = offPredictors D K F p + K * D := by
    simp [offInputBias, hPr]
  have hoffOB := offOutputBias_ge (D := D) (K := K) (F := F) p
  refine ⟨?_, ?_, ?_, ?_, ?_, ?_⟩ <;> simp only [MCBM.setParameters]
  · by_cases hP : p.trainPriors = true
    · have hoffW : offWeights D K F p = K := by simp [offWeights, hP]
      rw [hP, if_pos rfl, if_pos rfl,
        readVec_update_ne _ _ _ _ _ (fun j => by have := j.isLt; omega)]
    · simp [hP]
  · by_cases hW : p.trainWeights = true
    · have hoffFeq : offFeatures D K F p = offWeights D K F p + K * F := by
        simp [offFeatures, hW]
      rw [hW, if_pos rfl, if_pos rfl,
        readMat_update_ne _ _ _ _ _ _ (fun a b => by
          have := matIdx_lt a b; omega)]
    · simp [hW]
  · by_cases hF : p.trainFeatures = true
    · have hoffPreq : offPredictors D K F p = offFeatures D K F p + D * F := by
        simp [offPredictors, hF]
      rw [hF, if_pos rfl, if_pos rfl,
        readMat_update_ne _ _ _ _ _ _ (fun a b => by
          have := matIdx_lt a b; omega)]
    · simp [hF]
  · rw [hPr, if_pos rfl, if_pos rfl, readMat_update_eq x _ c₀ d₀ t]
  · by_cases hIB : p.trainInputBias = true
    · rw [hIB, if_pos rfl, if_pos rfl,
        readMat_update_ne _ _ _ _ _ _ (fun a b => by
          have := matIdx_lt a b; omega)]
    · simp [hIB]
  · by_cases hOB : p.trainOutputBias = true
    · rw [hOB, if_pos rfl, if_pos rfl,
        readVec_update_ne _ _ _ _ _ (fun j => by have := j.isLt; omega)]
    · simp [hOB]

/-- Perturbing the flat-buffer coordinate of inputBias entry `(d₀, c₀)`
changes the resolved parameter views in exactly that entry. -/
theorem setParameters_update_inputBias (m : MCBM D K F) (p : Parameters)
    (x : ℕ → ℝ) (hIB : p.trainInputBias = true) (d₀ : Fin D) (c₀ : Fin K)
    (t : ℝ) :
    (m.setParameters (Function.update x
        (offInputBias D K F p + ((c₀ : ℕ) * D + d₀)) t) p).priors
        = (m.setParameters x p).priors
    ∧ (m.setParameters (Function.update x
        (offInputBias D K F p + ((c₀ : ℕ) * D + d₀)) t) p).weights
        = (m.setParameters x p).weights
    ∧ (m.setParameters (Function.update x
        (offInputBias D K F p + ((c₀ : ℕ) * D + d₀)) t) p).features
        = (m.setParameters x p).features
    ∧ (m.setParameters (Function.update x
        (offInputBias D K F p + ((c₀ : ℕ) * D + d₀)) t) p).predictors
        = (m.setParameters x p).predictors
    ∧ (m.setParameters (Function.update x
        (offInputBias D K F p + ((c₀ : ℕ) * D + d₀)) t) p).inputBias
        = (fun d c => if d = d₀ ∧ c = c₀ then t
            else (m.setParameters x p).inputBias d c)
    ∧ (m.setParameters (Function.update x
        (offInputBias D K F p + ((c₀ : ℕ) * D + d₀)) t) p).outputBias
        = (m.setParameters x p).outputBias := by
  have henc : (c₀ : ℕ) * D + d₀ < D * K := matIdx_lt d₀ c₀
  have hoffF := offFeatures_ge (D := D) (K := K) (F := F) p
  have hoffPr := offPredictors_ge (D := D) (K := K) (F := F) p
  have hoffIB := offInputBias_ge (D := D) (K := K) (F := F) p
  have hoffOBeq : offOutputBias D K F p = offInputBias D K F p + D * K := by
    simp [offOutputBias, hIB]
  refine ⟨?_, ?_, ?_, ?_, ?_, ?_⟩ <;> simp only [MCBM.setParameters]
  · by_cases hP : p.trainPriors = true
    · have hoffW : offWeights D K F p = K := by simp [offWeights, hP]
      rw [hP, if_pos rfl, if_pos rfl,
        readVec_update_ne _ _ _ _ _ (fun j => by have := j.isLt; omega)]
    · simp [hP]
  · by_cases hW : p.trainWeights = true
    · have hoffFeq : offFeatures D K F p = offWeights D K F p + K * F := by
        simp [offFeatures, hW]
      rw [hW, if_pos rfl, if_pos rfl,
        readMat_update_ne _ _ _ _ _ _ (fun a b => by
          have := matIdx_lt a b; omega)]
    · simp [hW]
  · by_cases hF : p.trainFeatures = true
    · have hoffPreq : offPredictors D K F p = offFeatures D K F p + D * F := by
        simp [offPredictors, hF]
      rw [hF, if_pos rfl, if_pos rfl,
        readMat_update_ne _ _ _ _ _ _ (fun a b => by
          have := matIdx_lt a b; omega)]
    · simp [hF]
  · by_cases hPr : p.trainPredictors = true
    · have hoffIBeq2 : offInputBias D K F p = offPredictors D K F p + K * D := by
        simp [offInputBias, hPr]
      rw [hPr, if_pos rfl, if_pos rfl,
        readMat_update_ne _ _ _ _ _ _ (fun a b => by
          have := matIdx_lt a b; omega)]
    · simp [hPr]
  · rw [hIB, if_pos rfl, if_pos rfl, readMat_update_eq x _ d₀ c₀ t]
  · by_cases hOB : p.trainOutputBias = true
    · rw [hOB, if_pos rfl, if_pos rfl,
        readVec_update_ne _ _ _ _ _ (fun j => by have := j.isLt; omega)]
    · simp [hOB]

/-- Perturbing the flat-buffer coordinate of outputBias entry `c₀` changes
the resolved parameter views in exactly that entry. -/
theorem setParameters_update_outputBias (m : MCBM D K F) (p : Parameters)
    (x : ℕ → ℝ) (hOB : p.trainOutputBias = true) (c₀ : Fin K) (t : ℝ) :
    (m.setParameters (Function.update x
        (offOutputBias D K F p + (c₀ : ℕ)) t) p).priors
        = (m.setParameters x p).priors
    ∧ (m.setParameters (Function.update x
        (offOutputBias D K F p + (c₀ : ℕ)) t) p).weights
        = (m.setParameters x p).weights
    ∧ (m.setParameters (Function.update x
        (offOutputBias D K F p + (c₀ : ℕ)) t) p).features
        = (m.setParameters x p).features
    ∧ (m.setParameters (Function.update x
        (offOutputBias D K F p + (c₀ : ℕ)) t) p).predictors
        = (m.setParameters x p).predictors
    ∧ (m.setParameters (Function.update x
        (offOutputBias D K F p + (c₀ : ℕ)) t) p).inputBias
        = (m.setParameters x p).inputBias
    ∧ (m.setParameters (Function.update x
        (offOutputBias D K F p + (c₀ : ℕ)) t) p).outputBias
        = (fun c => if c = c₀ then t
            else (m.setParameters x p).outputBias c) := by
  have hoffF := offFeatures_ge (D := D) (K := K) (F := F) p
  have hoffPr := offPredictors_ge (D := D) (K := K) (F := F) p
  have hoffIB := offInputBias_ge (D := D) (K := K) (F := F) p
  have hoffOB := offOutputBias_ge (D := D) (K := K) (F := F) p
  refine ⟨?_, ?_, ?_, ?_, ?_, ?_⟩ <;> simp only [MCBM.setParameters]
  · by_cases hP : p.trainPriors = true
    · have hoffW : offWeights D K F p = K := by simp [offWeights, hP]
      rw [hP, if_pos rfl, if_pos rfl,
        readVec_update_ne _ _ _ _ _ (fun j => by have := j.isLt; omega)]
    · simp [hP]
  · by_cases hW : p.trainWeights = true
    · have hoffFeq : offFeatures D K F p = offWeights D K F p + K * F := by
        simp [offFeatures, hW]
      rw [hW, if_pos rfl, if_pos rfl,
        readMat_update_ne _ _ _ _ _ _ (fun a b => by
          have := matIdx_lt a b; omega)]
    · simp [hW]
  · by_cases hF : p.trainFeatures = true
    · have hoffPreq : offPredictors D K F p = offFeatures D K F p + D * F := by
        simp [offPredictors, hF]
      rw [hF, if_pos rfl, if_pos rfl,
        readMat_update_ne _ _ _ _ _ _ (fun a b => by
          have := matIdx_lt a b; omega)]
    · simp [hF]
  · by_cases hPr : p.trainPredictors = true
    · have hoffIBeq : offInputBias D K F p = offPredictors D K F p + K * D := by
        simp [offInputBias, hPr]
      rw [hPr, if_pos rfl, if_pos rfl,
        readMat_update_ne _ _ _ _ _ _ (fun a b => by
          have := matIdx_lt a b; omega)]
    · simp [hPr]
  · by_cases hIB : p.trainInputBias = true
    · have hoffOBeq : offOutputBias D K F p = offInputBias D K F p + D * K := by
        simp [offOutputBias, hIB]
      rw [hIB, if_pos rfl, if_pos rfl,
        readMat_update_ne _ _ _ _ _ _ (fun a b => by
          have := matIdx_lt a b; omega)]
    · simp [hIB]
  · rw [hOB, if_pos rfl, if_pos rfl, readVec_update_eq x _ c₀ t]

/-- Along a perturbation of the priors coordinate `c₀`, both log-score
vectors have derivative `1` in component `c₀` and `0` elsewhere. -/
theorem logPost_deriv_priors (m : MCBM D K F) (p : Parameters) (x : ℕ → ℝ)
    (hP : p.trainPriors = true) (c₀ : Fin K) (u : Fin D → ℝ) (t : ℝ) :
    (∀ c, HasDerivAt (fun r =>
        (m.setParameters (Function.update x (c₀ : ℕ) r) p).logPost0 u c)
      (if c = c₀ then 1 else 0) t)
    ∧ (∀ c, HasDerivAt (fun r =>
        (m.setParameters (Function.update x (c₀ : ℕ) r) p).logPost1 u c)
      (if c = c₀ then 1 else 0) t) := by
  have hfun0 : ∀ c, (fun r =>
      (m.setParameters (Function.update x (c₀ : ℕ) r) p).logPost0 u c)
      = fun r =>
        ((∑ f, (m.setParameters x p).weights c f
            * ((m.setParameters x p).featureOutput u f) ^ 2)
          + (∑ d, (m.setParameters x p).inputBias d c * u d))
        + (if c = c₀ then r else (m.setParameters x p).priors c) := by
    intro c
    funext r
    obtain ⟨e1, e2, e3, _, e5, _⟩ := setParameters_update_priors m p x hP c₀ r
    simp only [MCBM.logPost0, MCBM.featureOutput, e1, e2, e3, e5, add_assoc]
  have h0 : ∀ c, HasDerivAt (fun r =>
      (m.setParameters (Function.update x (c₀ : ℕ) r) p).logPost0 u c)
      (if c = c₀ then 1 else 0) t := by
    intro c
    rw [hfun0 c]
    by_cases hc : c = c₀
    · subst hc
      simp only [if_pos rfl]
      exact HasDerivAt.const_add _ (hasDerivAt_id t)
    · simp only [if_neg hc]
      exact hasDerivAt_const t _
  refine ⟨h0, fun c => ?_⟩
  have hfun1 : (fun r =>
      (m.setParameters (Function.update x (c₀ : ℕ) r) p).logPost1 u c)
      = fun r =>
        ((m.setParameters (Function.update x (c₀ : ℕ) r) p).logPost0 u c
          + (∑ d, (m.setParameters x p).predictors c d * u d))
        + (m.setParameters x p).outputBias c := by
    funext r
    obtain ⟨_, _, _, e4, _, e6⟩ := setParameters_update_priors m p x hP c₀ r
    simp only [MCBM.logPost1, e4, e6]
  rw [hfun1]
  exact ((h0 c).add_const _).add_const _

/-- The gradient entry written for priors coordinate `c₀` is the derivative
of the returned value in the corresponding flat-buffer coordinate. -/
theorem cgVal_hasDerivAt_priors (m : MCBM D K F) (numData : ℕ)
    (input : ℕ → ℕ → ℝ) (output : ℕ → ℝ) (x : ℕ → ℝ) (p : Parameters)
    (hK : 0 < K) (hN : 1 ≤ numData) (hB : 1 ≤ p.batchSize)
    (hP : p.trainPriors = true) (c₀ : Fin K) :
    HasDerivAt (fun r =>
        m.computeGradientVal numData input output
          (Function.update x (c₀ : ℕ) r) p)
      (m.computeGradientGrad numData input output x p (c₀ : ℕ))
      (x (c₀ : ℕ)) := by
  have hoffW : offWeights D K F p = K := by simp [offWeights, hP]
  have hgrad : m.computeGradientGrad numData input output x p (c₀ : ℕ)
      = (∑ n ∈ Finset.range numData, (m.setParameters x p).colGradPriors
          (fun d => input d n) (output n) c₀) / mcbmNormConst numData := by
    unfold MCBM.computeGradientGrad
    rw [if_pos (by omega : (c₀ : ℕ) < offWeights D K F p),
      batchSum_eq _ _ _ (by unfold effBatch; omega), vecEntry_encode,
      Finset.sum_apply]
  rw [hgrad]
  apply cgVal_hasDerivAt_of_cols m numData input output x p hN hB
  intro n
  have hmaster := colLogLik_hasDerivAt hK
    (fun r => m.setParameters (Function.update x (c₀ : ℕ) r) p)
    (fun d => input d n) (output n) (x (c₀ : ℕ))
    (fun c => if c = c₀ then 1 else 0) (fun c => if c = c₀ then 1 else 0)
    (logPost_deriv_priors m p x hP c₀ _ _).1
    (logPost_deriv_priors m p x hP c₀ _ _).2
  simp only [Function.update_eq_self] at hmaster
  convert hmaster using 1
  simp only [mul_ite, mul_one, mul_zero, Finset.sum_ite_eq', Finset.mem_univ,
    if_true]
  unfold MCBM.colGradPriors MCBM.postDiffTmp
  ring

/-- Along a perturbation of the outputBias coordinate `c₀`, the output-0
log-scores are constant and the output-1 log-scores have derivative `1` in
component `c₀` and `0` elsewhere. -/
theorem logPost_deriv_outputBias (m : MCBM D K F) (p : Parameters) (x : ℕ → ℝ)
    (hOB : p.trainOutputBias = true) (c₀ : Fin K) (u : Fin D → ℝ) (t : ℝ) :
    (∀ c, HasDerivAt (fun r =>
        (m.setParameters (Function.update x
          (offOutputBias D K F p + (c₀ : ℕ)) r) p).logPost0 u c)
      0 t)
    ∧ (∀ c, HasDerivAt (fun r =>
        (m.setParameters (Function.update x
          (offOutputBias D K F p + (c₀ : ℕ)) r) p).logPost1 u c)
      (if c = c₀ then 1 else 0) t) := by
  have hp0 : ∀ c r, (m.setParameters (Function.update x
      (offOutputBias D K F p + (c₀ : ℕ)) r) p).logPost0 u c
      = (m.setParameters x p).logPost0 u c := by
    intro c r
    obtain ⟨e1, e2, e3, _, e5, _⟩ := setParameters_update_outputBias m p x hOB c₀ r
    simp only [MCBM.logPost0, MCBM.featureOutput, e1, e2, e3, e5]
  have h0 : ∀ c, HasDerivAt (fun r =>
      (m.setParameters (Function.update x
        (offOutputBias D K F p + (c₀ : ℕ)) r) p).logPost0 u c) 0 t := by
    intro c
    have : (fun r => (m.setParameters (Function.update x
        (offOutputBias D K F p + (c₀ : ℕ)) r) p).logPost0 u c)
        = fun _ => (m.setParameters x p).logPost0 u c := funext fun r => hp0 c r
    rw [this]
    exact hasDerivAt_const t _
  refine ⟨h0, fun c => ?_⟩
  have hfun1 : (fun r => (m.setParameters (Function.update x
      (offOutputBias D K F p + (c₀ : ℕ)) r) p).logPost1 u c)
      = fun r => ((m.setParameters x p).logPost0 u c
          + (∑ d, (m.setParameters x p).predictors c d * u d))
        + (if c = c₀ then r else (m.setParameters x p).outputBias c) := by
    funext r
    obtain ⟨_, _, _, e4, _, e6⟩ := setParameters_update_outputBias m p x hOB c₀ r
    simp only [MCBM.logPost1, e4, e6, hp0 c r]
  rw [hfun1]
  by_cases hc : c = c₀
  · subst hc
    simp only [if_pos rfl]
    exact HasDerivAt.const_add _ (hasDerivAt_id t)
  · simp only [if_neg hc]
    exact hasDerivAt_const t _

/-- The gradient entry written for outputBias coordinate `c₀` is the
derivative of the returned value in the corresponding flat-buffer
coordinate. -/
theorem cgVal_hasDerivAt_outputBias (m : MCBM D K F) (numData : ℕ)
    (input : ℕ → ℕ → ℝ) (output : ℕ → ℝ) (x : ℕ → ℝ) (p : Parameters)
    (hK : 0 < K) (hN : 1 ≤ numData) (hB : 1 ≤ p.batchSize)
    (hOB : p.trainOutputBias = true) (c₀ : Fin K) :
    HasDerivAt (fun r =>
        m.computeGradientVal numData input output
          (Function.update x (offOutputBias D K F p + (c₀ : ℕ)) r) p)
      (m.computeGradientGrad numData input output x p
        (offOutputBias D K F p + (c₀ : ℕ)))
      (x (offOutputBias D K F p + (c₀ : ℕ))) := by
  have hoffF := offFeatures_ge (D := D) (K := K) (F := F) p
  have hoffPr := offPredictors_ge (D := D) (K := K) (F := F) p
  have hoffIB := offInputBias_ge (D := D) (K := K) (F := F) p
  have hoffOB := offOutputBias_ge (D := D) (K := K) (F := F) p
  have hnum : numParameters D K F p = offOutputBias D K F p + K := by
    simp [numParameters, hOB]
  have hc := c₀.isLt
  have hgrad : m.computeGradientGrad numData input output x p
      (offOutputBias D K F p + (c₀ : ℕ))
      = (∑ n ∈ Finset.range numData, (m.setParameters x p).colGradOutputBias
          (fun d => input d n) (output n) c₀) / mcbmNormConst numData := by
    unfold MCBM.computeGradientGrad
    rw [if_neg (by omega), if_neg (by omega), if_neg (by omega),
      if_neg (by omega), if_neg (by omega), if_pos (by omega),
      Nat.add_sub_cancel_left,
      batchSum_eq _ _ _ (by unfold effBatch; omega), vecEntry_encode,
      Finset.sum_apply]
  rw [hgrad]
  apply cgVal_hasDerivAt_of_cols m numData input output x p hN hB
  intro n
  have hmaster := colLogLik_hasDerivAt hK
    (fun r => m.setParameters (Function.update x
      (offOutputBias D K F p + (c₀ : ℕ)) r) p)
    (fun d => input d n) (output n) (x (offOutputBias D K F p + (c₀ : ℕ)))
    (fun _ => 0) (fun c => if c = c₀ then 1 else 0)
    (logPost_deriv_outputBias m p x hOB c₀ _ _).1
    (logPost_deriv_outputBias m p x hOB c₀ _ _).2
  simp only [Function.update_eq_self] at hmaster
  convert hmaster using 1
  simp only [mul_ite, mul_one, mul_zero, Finset.sum_ite_eq', Finset.mem_univ,
    if_true, Finset.sum_const_zero]
  unfold MCBM.colGradOutputBias
  ring

/-- Along a perturbation of the weights coordinate `(c₀, f₀)`, both log-score
vectors have derivative `featureOutput f₀ ^ 2` in component `c₀` and `0`
elsewhere. -/
theorem logPost_deriv_weights (m : MCBM D K F) (p : Parameters) (x : ℕ → ℝ)
    (hW : p.trainWeights = true) (c₀ : Fin K) (f₀ : Fin F) (u : Fin D → ℝ)
    (t : ℝ) :
    (∀ c, HasDerivAt (fun r =>
        (m.setParameters (Function.update x
          (offWeights D K F p + ((f₀ : ℕ) * K + c₀)) r) p).logPost0 u c)
      (if c = c₀ then ((m.setParameters x p).featureOutput u f₀) ^ 2 else 0) t)
    ∧ (∀ c, HasDerivAt (fun r =>
        (m.setParameters (Function.update x
          (offWeights D K F p + ((f₀ : ℕ) * K + c₀)) r) p).logPost1 u c)
      (if c = c₀ then ((m.setParameters x p).featureOutput u f₀) ^ 2 else 0)
      t) := by
  have hfun0 : ∀ c, (fun r =>
      (m.setParameters (Function.update x
        (offWeights D K F p + ((f₀ : ℕ) * K + c₀)) r) p).logPost0 u c)
      = fun r =>
        ((∑ f, (if c = c₀ ∧ f = f₀ then r else (m.setParameters x p).weights c f)
            * ((m.setParameters x p).featureOutput u f) ^ 2)
          + (∑ d, (m.setParameters x p).inputBias d c * u d))
        + (m.setParameters x p).priors c := by
    intro c
    funext r
    obtain ⟨e1, e2, e3, _, e5, _⟩ := setParameters_update_weights m p x hW c₀ f₀ r
    simp only [MCBM.logPost0, MCBM.featureOutput, e1, e2, e3, e5, add_assoc]
  have hcollapse : ∀ c, (∑ f, if c = c₀ ∧ f = f₀
        then ((m.setParameters x p).featureOutput u f) ^ 2 else 0)
      = (if c = c₀ then ((m.setParameters x p).featureOutput u f₀) ^ 2 else 0) := by
    intro c
    by_cases hc : c = c₀
    · simp [hc, Finset.sum_ite_eq']
    · simp [hc]
  have h0 : ∀ c, HasDerivAt (fun r =>
      (m.setParameters (Function.update x
        (offWeights D K F p + ((f₀ : ℕ) * K + c₀)) r) p).logPost0 u c)
      (if c = c₀ then ((m.setParameters x p).featureOutput u f₀) ^ 2 else 0)
      t := by
    intro c
    rw [hfun0 c, ← hcollapse c]
    refine HasDerivAt.add_const (HasDerivAt.add_const ?_ _) _
    refine HasDerivAt.sum fun f _ => ?_
    by_cases hcf : c = c₀ ∧ f = f₀
    · simp only [if_pos hcf]
      simpa using (hasDerivAt_id t).mul_const
        (((m.setParameters x p).featureOutput u f) ^ 2)
    · simp only [if_neg hcf]
      exact hasDerivAt_const t _
  refine ⟨h0, fun c => ?_⟩
  have hfun1 : (fun r => (m.setParameters (Function.update x
      (offWeights D K F p + ((f₀ : ℕ) * K + c₀)) r) p).logPost1 u c)
      = fun r => ((m.setParameters (Function.update x
          (offWeights D K F p + ((f₀ : ℕ) * K + c₀)) r) p).logPost0 u c
          + (∑ d, (m.setParameters x p).predictors c d * u d))
        + (m.setParameters x p).outputBias c := by
    funext r
    obtain ⟨_, _, _, e4, _, e6⟩ := setParameters_update_weights m p x hW c₀ f₀ r
    simp only [MCBM.logPost1, e4, e6]
  rw [hfun1]
  exact ((h0 c).add_const _).add_const _

/-- The gradient entry written for weights coordinate `(c₀, f₀)` is the
derivative of the returned value in the corresponding flat-buffer
coordinate. -/
theorem cgVal_hasDerivAt_weights (m : MCBM D K F) (numData : ℕ)
    (input : ℕ → ℕ → ℝ) (output : ℕ → ℝ) (x : ℕ → ℝ) (p : Parameters)
    (hK : 0 < K) (hN : 1 ≤ numData) (hB : 1 ≤ p.batchSize)
    (hW : p.trainWeights = true) (c₀ : Fin K) (f₀ : Fin F) :
    HasDerivAt (fun r =>
        m.computeGradientVal numData input output
          (Function.update x (offWeights D K F p + ((f₀ : ℕ) * K + c₀)) r) p)
      (m.computeGradientGrad numData input output x p
        (offWeights D K F p + ((f₀ : ℕ) * K + c₀)))
      (x (offWeights D K F p + ((f₀ : ℕ) * K + c₀))) := by
  have henc : (f₀ : ℕ) * K + c₀ < K * F := matIdx_lt c₀ f₀
  have hoffFeq : offFeatures D K F p = offWeights D K F p + K * F := by
    simp [offFeatures, hW]
  have hgrad : m.computeGradientGrad numData input output x p
      (offWeights D K F p + ((f₀ : ℕ) * K + c₀))
      = (∑ n ∈ Finset.range numData, (m.setParameters x p).colGradWeights
          (fun d => input d n) (output n) c₀ f₀) / mcbmNormConst numData := by
    unfold MCBM.computeGradientGrad
    rw [if_neg (by omega), if_pos (by omega), Nat.add_sub_cancel_left,
      batchSum_eq _ _ _ (by unfold effBatch; omega), matEntry_encode,
      Finset.sum_apply, Finset.sum_apply]
  rw [hgrad]
  apply cgVal_hasDerivAt_of_cols m numData input output x p hN hB
  intro n
  have hmaster := colLogLik_hasDerivAt hK
    (fun r => m.setParameters (Function.update x
      (offWeights D K F p + ((f₀ : ℕ) * K + c₀)) r) p)
    (fun d => input d n) (output n)
    (x (offWeights D K F p + ((f₀ : ℕ) * K + c₀)))
    (fun c => if c = c₀
      then ((m.setParameters x p).featureOutput (fun d => input d n) f₀) ^ 2
      else 0)
    (fun c => if c = c₀
      then ((m.setParameters x p).featureOutput (fun d => input d n) f₀) ^ 2
      else 0)
    (logPost_deriv_weights m p x hW c₀ f₀ _ _).1
    (logPost_deriv_weights m p x hW c₀ f₀ _ _).2
  simp only [Function.update_eq_self] at hmaster
  convert hmaster using 1
  simp only [mul_ite, mul_one, mul_zero, Finset.sum_ite_eq', Finset.mem_univ,
    if_true]
  unfold MCBM.colGradWeights MCBM.postDiffTmp
  ring

/-- Along a perturbation of the predictors coordinate `(c₀, d₀)`, the
output-0 log-scores are constant and the output-1 log-scores have derivative
`u d₀` in component `c₀` and `0` elsewhere. -/
theorem logPost_deriv_predictors (m : MCBM D K F) (p : Parameters) (x : ℕ → ℝ)
    (hPr : p.trainPredictors = true) (c₀ : Fin K) (d₀ : Fin D) (u : Fin D → ℝ)
    (t : ℝ) :
    (∀ c, HasDerivAt (fun r =>
        (m.setParameters (Function.update x
          (offPredictors D K F p + ((d₀ : ℕ) * K + c₀)) r) p).logPost0 u c)
      0 t)
    ∧ (∀ c, HasDerivAt (fun r =>
        (m.setParameters (Function.update x
          (offPredictors D K F p + ((d₀ : ℕ) * K + c₀)) r) p).logPost1 u c)
      (if c = c₀ then u d₀ else 0) t) := by
  have hp0 : ∀ c r, (m.setParameters (Function.update x
      (offPredictors D K F p + ((d₀ : ℕ) * K + c₀)) r) p).logPost0 u c
      = (m.setParameters x p).logPost0 u c := by
    intro c r
    obtain ⟨e1, e2, e3, _, e5, _⟩ := setParameters_update_predictors m p x hPr c₀ d₀ r
    simp only [MCBM.logPost0, MCBM.featureOutput, e1, e2, e3, e5]
  have h0 : ∀ c, HasDerivAt (fun r =>
      (m.setParameters (Function.update x
        (offPredictors D K F p + ((d₀ : ℕ) * K + c₀)) r) p).logPost0 u c)
      0 t := by
    intro c
    have he : (fun r => (m.setParameters (Function.update x
        (offPredictors D K F p + ((d₀ : ℕ) * K + c₀)) r) p).logPost0 u c)
        = fun _ => (m.setParameters x p).logPost0 u c := funext fun r => hp0 c r
    rw [he]
    exact hasDerivAt_const t _
  refine ⟨h0, fun c => ?_⟩
  have hfun1 : (fun r => (m.setParameters (Function.update x
      (offPredictors D K F p + ((d₀ : ℕ) * K + c₀)) r) p).logPost1 u c)
      = fun r => ((m.setParameters x p).logPost0 u c
          + (∑ d, (if c = c₀ ∧ d = d₀ then r
              else (m.setParameters x p).predictors c d) * u d))
        + (m.setParameters x p).outputBias c := by
    funext r
    obtain ⟨_, _, _, e4, _, e6⟩ := setParameters_update_predictors m p x hPr c₀ d₀ r
    simp only [MCBM.logPost1, e4, e6, hp0 c r]
  rw [hfun1]
  have hcollapse : (∑ d, if c = c₀ ∧ d = d₀ then u d else 0)
      = (if c = c₀ then u d₀ else 0) := by
    by_cases hc : c = c₀
    · simp [hc, Finset.sum_ite_eq']
    · simp [hc]
  rw [← hcollapse]
  refine HasDerivAt.add_const (HasDerivAt.const_add _ ?_) _
  refine HasDerivAt.sum fun d _ => ?_
  by_cases hcd : c = c₀ ∧ d = d₀
  · simp only [if_pos hcd]
    simpa using (hasDerivAt_id t).mul_const (u d)
  · simp only [if_neg hcd]
    exact hasDerivAt_const t _

/-- The gradient entry written for predictors coordinate `(c₀, d₀)` is the
derivative of the returned value in the corresponding flat-buffer
coordinate. -/
theorem cgVal_hasDerivAt_predictors (m : MCBM D K F) (numData : ℕ)
    (input : ℕ → ℕ → ℝ) (output : ℕ → ℝ) (x : ℕ → ℝ) (p : Parameters)
    (hK : 0 < K) (hN : 1 ≤ numData) (hB : 1 ≤ p.batchSize)
    (hPr : p.trainPredictors = true) (c₀ : Fin K) (d₀ : Fin D) :
    HasDerivAt (fun r =>
        m.computeGradientVal numData input output
          (Function.update x (offPredictors D K F p + ((d₀ : ℕ) * K + c₀)) r) p)
      (m.computeGradientGrad numData input output x p
        (offPredictors D K F p + ((d₀ : ℕ) * K + c₀)))
      (x (offPredictors D K F p + ((d₀ : ℕ) * K + c₀))) := by
  have henc : (d₀ : ℕ) * K + c₀ < K * D := matIdx_lt c₀ d₀
  have hoffF := offFeatures_ge (D := D) (K := K) (F := F) p
  have hoffPr := offPredictors_ge (D := D) (K := K) (F := F) p
  have hoffIBeq : offInputBias D K F p = offPredictors D K F p + K * D := by
    simp [offInputBias, hPr]
  have hgrad : m.computeGradientGrad numData input output x p
      (offPredictors D K F p + ((d₀ : ℕ) * K + c₀))
      = (∑ n ∈ Finset.range numData, (m.setParameters x p).colGradPredictors
          (fun d => input d n) (output n) c₀ d₀) / mcbmNormConst numData := by
    unfold MCBM.computeGradientGrad
    rw [if_neg (by omega), if_neg (by omega), if_neg (by omega),
      if_pos (by omega), Nat.add_sub_cancel_left,
      batchSum_eq _ _ _ (by unfold effBatch; omega), matEntry_encode,
      Finset.sum_apply, Finset.sum_apply]
  rw [hgrad]
  apply cgVal_hasDerivAt_of_cols m numData input output x p hN hB
  intro n
  have hmaster := colLogLik_hasDerivAt hK
    (fun r => m.setParameters (Function.update x
      (offPredictors D K F p + ((d₀ : ℕ) * K + c₀)) r) p)
    (fun d => input d n) (output n)
    (x (offPredictors D K F p + ((d₀ : ℕ) * K + c₀)))
    (fun _ => 0) (fun c => if c = c₀ then input d₀ n else 0)
    (logPost_deriv_predictors m p x hPr c₀ d₀ _ _).1
    (logPost_deriv_predictors m p x hPr c₀ d₀ _ _).2
  simp only [Function.update_eq_self] at hmaster
  convert hmaster using 1
  simp only [mul_ite, mul_one, mul_zero, Finset.sum_ite_eq', Finset.mem_univ,
    if_true, Finset.sum_const_zero]
  unfold MCBM.colGradPredictors
  ring

/-- Along a perturbation of the inputBias coordinate `(d₀, c₀)`, both
log-score vectors have derivative `u d₀` in component `c₀` and `0`
elsewhere. -/
theorem logPost_deriv_inputBias (m : MCBM D K F) (p : Parameters) (x : ℕ → ℝ)
    (hIB : p.trainInputBias = true) (d₀ : Fin D) (c₀ : Fin K) (u : Fin D → ℝ)
    (t : ℝ) :
    (∀ c, HasDerivAt (fun r =>
        (m.setParameters (Function.update x
          (offInputBias D K F p + ((c₀ : ℕ) * D + d₀)) r) p).logPost0 u c)
      (if c = c₀ then u d₀ else 0) t)
    ∧ (∀ c, HasDerivAt (fun r =>
        (m.setParameters (Function.update x
          (offInputBias D K F p + ((c₀ : ℕ) * D + d₀)) r) p).logPost1 u c)
      (if c = c₀ then u d₀ else 0) t) := by
  have hfun0 : ∀ c, (fun r =>
      (m.setParameters (Function.update x
        (offInputBias D K F p + ((c₀ : ℕ) * D + d₀)) r) p).logPost0 u c)
      = fun r =>
        ((∑ f, (m.setParameters x p).weights c f
            * ((m.setParameters x p).featureOutput u f) ^ 2)
          + (∑ d, (if d = d₀ ∧ c = c₀ then r
              else (m.setParameters x p).inputBias d c) * u d))
        + (m.setParameters x p).priors c := by
    intro c
    funext r
    obtain ⟨e1, e2, e3, _, e5, _⟩ := setParameters_update_inputBias m p x hIB d₀ c₀ r
    simp only [MCBM.logPost0, MCBM.featureOutput, e1, e2, e3, e5, add_assoc]
  have hcollapse : ∀ c, (∑ d, if d = d₀ ∧ c = c₀ then u d else 0)
      = (if c = c₀ then u d₀ else 0) := by
    intro c
    by_cases hc : c = c₀
    · simp [hc, Finset.sum_ite_eq']
    · simp [hc]
  have h0 : ∀ c, HasDerivAt (fun r =>
      (m.setParameters (Function.update x
        (offInputBias D K F p + ((c₀ : ℕ) * D + d₀)) r) p).logPost0 u c)
      (if c = c₀ then u d₀ else 0) t := by
    intro c
    rw [hfun0 c, ← hcollapse c]
    refine HasDerivAt.add_const (HasDerivAt.const_add _ ?_) _
    refine HasDerivAt.sum fun d _ => ?_
    by_cases hdc : d = d₀ ∧ c = c₀
    · simp only [if_pos hdc]
      simpa using (hasDerivAt_id t).mul_const (u d)
    · simp only [if_neg hdc]
      exact hasDerivAt_const t _
  refine ⟨h0, fun c => ?_⟩
  have hfun1 : (fun r => (m.setParameters (Function.update x
      (offInputBias D K F p + ((c₀ : ℕ) * D + d₀)) r) p).logPost1 u c)
      = fun r => ((m.setParameters (Function.update x
          (offInputBias D K F p + ((c₀ : ℕ) * D + d₀)) r) p).logPost0 u c
          + (∑ d, (m.setParameters x p).predictors c d * u d))
        + (m.setParameters x p).outputBias c := by
    funext r
    obtain ⟨_, _, _, e4, _, e6⟩ := setParameters_update_inputBias m p x hIB d₀ c₀ r
    simp only [MCBM.logPost1, e4, e6]
  rw [hfun1]
  exact ((h0 c).add_const _).add_const _

/-- The gradient entry written for inputBias coordinate `(d₀, c₀)` is the
derivative of the returned value in the corresponding flat-buffer
coordinate. -/
theorem cgVal_hasDerivAt_inputBias (m : MCBM D K F) (numData : ℕ)
    (input : ℕ → ℕ → ℝ) (output : ℕ → ℝ) (x : ℕ → ℝ) (p : Parameters)
    (hK : 0 < K) (hN : 1 ≤ numData) (hB : 1 ≤ p.batchSize)
    (hIB : p.trainInputBias = true) (d₀ : Fin D) (c₀ : Fin K) :
    HasDerivAt (fun r =>
        m.computeGradientVal numData input output
          (Function.update x (offInputBias D K F p + ((c₀ : ℕ) * D + d₀)) r) p)
      (m.computeGradientGrad numData input output x p
        (offInputBias D K F p + ((c₀ : ℕ) * D + d₀)))
      (x (offInputBias D K F p + ((c₀ : ℕ) * D + d₀))) := by
  have henc : (c₀ : ℕ) * D + d₀ < D * K := matIdx_lt d₀ c₀
  have hoffF := offFeatures_ge (D := D) (K := K) (F := F) p
  have hoffPr := offPredictors_ge (D := D) (K := K) (F := F) p
  have hoffIB := offInputBias_ge (D := D) (K := K) (F := F) p
  have hoffOBeq : offOutputBias D K F p = offInputBias D K F p + D * K := by
    simp [offOutputBias, hIB]
  have hgrad : m.computeGradientGrad numData input output x p
      (offInputBias D K F p + ((c₀ : ℕ) * D + d₀))
      = (∑ n ∈ Finset.range numData, (m.setParameters x p).colGradInputBias
          (fun d => input d n) (output n) d₀ c₀) / mcbmNormConst numData := by
    unfold MCBM.computeGradientGrad
    rw [if_neg (by omega), if_neg (by omega), if_neg (by omega),
      if_neg (by omega), if_pos (by omega), Nat.add_sub_cancel_left,
      batchSum_eq _ _ _ (by unfold effBatch; omega), matEntry_encode,
      Finset.sum_apply, Finset.sum_apply]
  rw [hgrad]
  apply cgVal_hasDerivAt_of_cols m numData input output x p hN hB
  intro n
  have hmaster := colLogLik_hasDerivAt hK
    (fun r => m.setParameters (Function.update x
      (offInputBias D K F p + ((c₀ : ℕ) * D + d₀)) r) p)
    (fun d => input d n) (output n)
    (x (offInputBias D K F p + ((c₀ : ℕ) * D + d₀)))
    (fun c => if c = c₀ then input d₀ n else 0)
    (fun c => if c = c₀ then input d₀ n else 0)
    (logPost_deriv_inputBias m p x hIB d₀ c₀ _ _).1
    (logPost_deriv_inputBias m p x hIB d₀ c₀ _ _).2
  simp only [Function.update_eq_self] at hmaster
  convert hmaster using 1
  simp only [mul_ite, mul_one, mul_zero, Finset.sum_ite_eq', Finset.mem_univ,
    if_true]
  unfold MCBM.colGradInputBias MCBM.postDiffTmp
  ring

/-- Along a perturbation of the features coordinate `(d₀, f₀)`, evaluated at
the base point, both log-score vectors have derivative
`weights c f₀ * (2 * featureOutput f₀ * u d₀)` in every component `c`
(chain rule through the squared feature activation). -/
theorem logPost_deriv_features (m : MCBM D K F) (p : Parameters) (x : ℕ → ℝ)
    (hF : p.trainFeatures = true) (d₀ : Fin D) (f₀ : Fin F) (u : Fin D → ℝ) :
    (∀ c, HasDerivAt (fun r =>
        (m.setParameters (Function.update x
          (offFeatures D K F p + ((f₀ : ℕ) * D + d₀)) r) p).logPost0 u c)
      ((m.setParameters x p).weights c f₀
        * (2 * (m.setParameters x p).featureOutput u f₀ * u d₀))
      (x (offFeatures D K F p + ((f₀ : ℕ) * D + d₀))))
    ∧ (∀ c, HasDerivAt (fun r =>
        (m.setParameters (Function.update x
          (offFeatures D K F p + ((f₀ : ℕ) * D + d₀)) r) p).logPost1 u c)
      ((m.setParameters x p).weights c f₀
        * (2 * (m.setParameters x p).featureOutput u f₀ * u d₀))
      (x (offFeatures D K F p + ((f₀ : ℕ) * D + d₀)))) := by
  have hfun0 : ∀ c, (fun r =>
      (m.setParameters (Function.update x
        (offFeatures D K F p + ((f₀ : ℕ) * D + d₀)) r) p).logPost0 u c)
      = fun r =>
        ((∑ f, (m.setParameters x p).weights c f
            * (∑ d, (if d = d₀ ∧ f = f₀ then r
                else (m.setParameters x p).features d f) * u d) ^ 2)
          + (∑ d, (m.setParameters x p).inputBias d c * u d))
        + (m.setParameters x p).priors c := by
    intro c
    funext r
    obtain ⟨e1, e2, e3, _, e5, _⟩ := setParameters_update_features m p x hF d₀ f₀ r
    simp only [MCBM.logPost0, MCBM.featureOutput, e1, e2, e3, e5, add_assoc]
  have hvfeat : (m.setParameters x p).features d₀ f₀
      = x (offFeatures D K F p + ((f₀ : ℕ) * D + d₀)) := by
    simp only [MCBM.setParameters]
    rw [hF, if_pos rfl]
    rfl
  have hbase : ∀ f, (∑ d, (if d = d₀ ∧ f = f₀
        then x (offFeatures D K F p + ((f₀ : ℕ) * D + d₀))
        else (m.setParameters x p).features d f) * u d)
      = (m.setParameters x p).featureOutput u f := by
    intro f
    unfold MCBM.featureOutput
    refine Finset.sum_congr rfl fun d _ => ?_
    by_cases hdf : d = d₀ ∧ f = f₀
    · obtain ⟨hd, hf'⟩ := hdf
      subst hd
      subst hf'
      rw [if_pos ⟨rfl, rfl⟩, hvfeat]
    · rw [if_neg hdf]
  have hfo : ∀ f, HasDerivAt (fun r => ∑ d, (if d = d₀ ∧ f = f₀ then r
        else (m.setParameters x p).features d f) * u d)
      (if f = f₀ then u d₀ else 0)
      (x (offFeatures D K F p + ((f₀ : ℕ) * D + d₀))) := by
    intro f
    have hcd : (∑ d, if d = d₀ ∧ f = f₀ then u d else 0)
        = (if f = f₀ then u d₀ else 0) := by
      by_cases hf' : f = f₀
      · simp [hf', Finset.sum_ite_eq']
      · simp [hf']
    rw [← hcd]
    refine HasDerivAt.sum fun d _ => ?_
    by_cases hdf : d = d₀ ∧ f = f₀
    · simp only [if_pos hdf]
      simpa using (hasDerivAt_id _).mul_const (u d)
    · simp only [if_neg hdf]
      exact hasDerivAt_const _ _
  have hsq : ∀ f, HasDerivAt (fun r => (∑ d, (if d = d₀ ∧ f = f₀ then r
        else (m.setParameters x p).features d f) * u d) ^ 2)
      (2 * (m.setParameters x p).featureOutput u f
        * (if f = f₀ then u d₀ else 0))
      (x (offFeatures D K F p + ((f₀ : ℕ) * D + d₀))) := by
    intro f
    have h2 := (hfo f).pow 2
    simp only [Nat.cast_ofNat] at h2
    rw [hbase f] at h2
    rw [show (2 : ℕ) - 1 = 1 from rfl, pow_one] at h2
    exact h2
  have hcollapse : ∀ c, (∑ f, (m.setParameters x p).weights c f
        * (2 * (m.setParameters x p).featureOutput u f
          * (if f = f₀ then u d₀ else 0)))
      = (m.setParameters x p).weights c f₀
        * (2 * (m.setParameters x p).featureOutput u f₀ * u d₀) := by
    intro c
    simp [mul_ite, Finset.sum_ite_eq']
  have h0 : ∀ c, HasDerivAt (fun r =>
      (m.setParameters (Function.update x
        (offFeatures D K F p + ((f₀ : ℕ) * D + d₀)) r) p).logPost0 u c)
      ((m.setParameters x p).weights c f₀
        * (2 * (m.setParameters x p).featureOutput u f₀ * u d₀))
      (x (offFeatures D K F p + ((f₀ : ℕ) * D + d₀))) := by
    intro c
    rw [hfun0 c, ← hcollapse c]
    refine HasDerivAt.add_const (HasDerivAt.add_const ?_ _) _
    exact HasDerivAt.sum fun f _ => (hsq f).const_mul _
  refine ⟨h0, fun c => ?_⟩
  have hfun1 : (fun r => (m.setParameters (Function.update x
      (offFeatures D K F p + ((f₀ : ℕ) * D + d₀)) r) p).logPost1 u c)
      = fun r => ((m.setParameters (Function.update x
          (offFeatures D K F p + ((f₀ : ℕ) * D + d₀)) r) p).logPost0 u c
          + (∑ d, (m.setParameters x p).predictors c d * u d))
        + (m.setParameters x p).outputBias c := by
    funext r
    obtain ⟨_, _, _, e4, _, e6⟩ := setParameters_update_features m p x hF d₀ f₀ r
    simp only [MCBM.logPost1, e4, e6]
  rw [hfun1]
  exact ((h0 c).add_const _).add_const _

/-- The gradient entry written for features coordinate `(d₀, f₀)` is the
derivative of the returned value in the corresponding flat-buffer
coordinate. -/
theorem cgVal_hasDerivAt_features (m : MCBM D K F) (numData : ℕ)
    (input : ℕ → ℕ → ℝ) (output : ℕ → ℝ) (x : ℕ → ℝ) (p : Parameters)
    (hK : 0 < K) (hN : 1 ≤ numData) (hB : 1 ≤ p.batchSize)
    (hF : p.trainFeatures = true) (d₀ : Fin D) (f₀ : Fin F) :
    HasDerivAt (fun r =>
        m.computeGradientVal numData input output
          (Function.update x (offFeatures D K F p + ((f₀ : ℕ) * D + d₀)) r) p)
      (m.computeGradientGrad numData input output x p
        (offFeatures D K F p + ((f₀ : ℕ) * D + d₀)))
      (x (offFeatures D K F p + ((f₀ : ℕ) * D + d₀))) := by
  have henc : (f₀ : ℕ) * D + d₀ < D * F := matIdx_lt d₀ f₀
  have hoffF := offFeatures_ge (D := D) (K := K) (F := F) p
  have hoffPreq : offPredictors D K F p = offFeatures D K F p + D * F := by
    simp [offPredictors, hF]
  have hgrad : m.computeGradientGrad numData input output x p
      (offFeatures D K F p + ((f₀ : ℕ) * D + d₀))
      = (∑ n ∈ Finset.range numData, (m.setParameters x p).colGradFeatures
          (fun d => input d n) (output n) d₀ f₀) / mcbmNormConst numData := by
    unfold MCBM.computeGradientGrad
    rw [if_neg (by omega), if_neg (by omega), if_pos (by omega),
      Nat.add_sub_cancel_left,
      batchSum_eq _ _ _ (by unfold effBatch; omega), matEntry_encode,
      Finset.sum_apply, Finset.sum_apply]
  rw [hgrad]
  apply cgVal_hasDerivAt_of_cols m numData input output x p hN hB
  intro n
  have hmaster := colLogLik_hasDerivAt hK
    (fun r => m.setParameters (Function.update x
      (offFeatures D K F p + ((f₀ : ℕ) * D + d₀)) r) p)
    (fun d => input d n) (output n)
    (x (offFeatures D K F p + ((f₀ : ℕ) * D + d₀)))
    (fun c => (m.setParameters x p).weights c f₀
      * (2 * (m.setParameters x p).featureOutput (fun d => input d n) f₀
        * input d₀ n))
    (fun c => (m.setParameters x p).weights c f₀
      * (2 * (m.setParameters x p).featureOutput (fun d => input d n) f₀
        * input d₀ n))
    (logPost_deriv_features m p x hF d₀ f₀ _).1
    (logPost_deriv_features m p x hF d₀ f₀ _).2
  simp only [Function.update_eq_self] at hmaster
  convert hmaster using 1
  unfold MCBM.colGradFeatures MCBM.postDiffTmp
  rw [Finset.sum_mul, Finset.mul_sum, Finset.mul_sum,
    ← Finset.sum_sub_distrib, Finset.mul_sum]
  exact Finset.sum_congr rfl fun c _ => by ring

/-- Claim C1 (amended): for every batch of column-indexed inputs/outputs with
`numData ≥ 1` columns, at least one mixture component, a positive batch size,
every flag set, and any supplied parameter buffer, `computeGradient` returns
the batch's summed conditional log-likelihood divided by `numData / ln 2`,
and writes into the gradient buffer, for each flagged group in the fixed
order priors, weights, features, predictors, inputBias, outputBias, laid out
contiguously at the group's running offset with unflagged groups omitted,
the analytic gradient of the returned value itself: the entry written for a
flagged parameter equals PLUS the derivative of the returned value with
respect to that flat-buffer coordinate (not minus — the code accumulates the
derivative of the positive normalized log-likelihood and divides the buffer
by the positive constant `normConst`). -/
theorem computeGradient_value_and_gradient (m : MCBM D K F) (numData : ℕ)
    (input : ℕ → ℕ → ℝ) (output : ℕ → ℝ) (x : ℕ → ℝ) (p : Parameters)
    (hK : 0 < K) (hN : 1 ≤ numData) (hB : 1 ≤ p.batchSize) :
    (m.computeGradientVal numData input output x p
      = (∑ n ∈ Finset.range numData, (m.setParameters x p).colLogLik
          (fun d => input d n) (output n)) / mcbmNormConst numData)
    ∧ (p.trainPriors = true → ∀ c₀ : Fin K,
        HasDerivAt (fun r => m.computeGradientVal numData input output
            (Function.update x (c₀ : ℕ) r) p)
          (m.computeGradientGrad numData input output x p (c₀ : ℕ))
          (x (c₀ : ℕ)))
    ∧ (p.trainWeights = true → ∀ (c₀ : Fin K) (f₀ : Fin F),
        HasDerivAt (fun r => m.computeGradientVal numData input output
            (Function.update x (offWeights D K F p + ((f₀ : ℕ) * K + c₀)) r) p)
          (m.computeGradientGrad numData input output x p
            (offWeights D K F p + ((f₀ : ℕ) * K + c₀)))
          (x (offWeights D K F p + ((f₀ : ℕ) * K + c₀))))
    ∧ (p.trainFeatures = true → ∀ (d₀ : Fin D) (f₀ : Fin F),
        HasDerivAt (fun r => m.computeGradientVal numData input output
            (Function.update x (offFeatures D K F p + ((f₀ : ℕ) * D + d₀)) r) p)
          (m.computeGradientGrad numData input output x p
            (offFeatures D K F p + ((f₀ : ℕ) * D + d₀)))
          (x (offFeatures D K F p + ((f₀ : ℕ) * D + d₀))))
    ∧ (p.trainPredictors = true → ∀ (c₀ : Fin K) (d₀ : Fin D),
        HasDerivAt (fun r => m.computeGradientVal numData input output
            (Function.update x (offPredictors D K F p + ((d₀ : ℕ) * K + c₀)) r) p)
          (m.computeGradientGrad numData input output x p
            (offPredictors D K F p + ((d₀ : ℕ) * K + c₀)))
          (x (offPredictors D K F p + ((d₀ : ℕ) * K + c₀))))
    ∧ (p.trainInputBias = true → ∀ (d₀ : Fin D) (c₀ : Fin K),
        HasDerivAt (fun r => m.computeGradientVal numData input output
            (Function.update x (offInputBias D K F p + ((c₀ : ℕ) * D + d₀)) r) p)
          (m.computeGradientGrad numData input output x p
            (offInputBias D K F p + ((c₀ : ℕ) * D + d₀)))
          (x (offInputBias D K F p + ((c₀ : ℕ) * D + d₀))))
    ∧ (p.trainOutputBias = true → ∀ c₀ : Fin K,
        HasDerivAt (fun r => m.computeGradientVal numData input output
            (Function.update x (offOutputBias D K F p + (c₀ : ℕ)) r) p)
          (m.computeGradientGrad numData input output x p
            (offOutputBias D K F p + (c₀ : ℕ)))
          (x (offOutputBias D K F p + (c₀ : ℕ)))) := by
  refine ⟨?_, fun hP c₀ => ?_, fun hW c₀ f₀ => ?_, fun hF d₀ f₀ => ?_,
    fun hPr c₀ d₀ => ?_, fun hIB d₀ c₀ => ?_, fun hOB c₀ => ?_⟩
  · unfold MCBM.computeGradientVal
    rw [batchSum_eq _ _ _ (by unfold effBatch; omega)]
  · exact cgVal_hasDerivAt_priors m numData input output x p hK hN hB hP c₀
  · exact cgVal_hasDerivAt_weights m numData input output x p hK hN hB hW c₀ f₀
  · exact cgVal_hasDerivAt_features m numData input output x p hK hN hB hF d₀ f₀
  · exact cgVal_hasDerivAt_predictors m numData input output x p hK hN hB hPr c₀ d₀
  · exact cgVal_hasDerivAt_inputBias m numData input output x p hK hN hB hIB d₀ c₀
  · exact cgVal_hasDerivAt_outputBias m numData input output x p hK hN hB hOB c₀

/-- Counterexample to claim C1 as stated: on the smallest model (all
parameters zero), one column with input 0 and output 1, and all groups
flagged, the gradient entry written for the outputBias coordinate (flat
index 5) equals `ln 2 / 2`, which is PLUS the derivative of the returned
value in that coordinate.  The claim asserts the written entry is MINUS that
derivative; since the derivative is unique and `ln 2 / 2 ≠ -(ln 2 / 2)`, the
negated gradient is not a derivative of the returned value. -/
theorem computeGradient_gradient_sign_counterexample :
    mZero.computeGradientGrad 1 (fun _ _ => 0) (fun _ => 1) (fun _ => 0) pAll 5
      = Real.log 2 / 2
    ∧ HasDerivAt (fun r => mZero.computeGradientVal 1 (fun _ _ => 0)
        (fun _ => 1) (Function.update (fun _ => (0 : ℝ)) 5 r) pAll)
      (mZero.computeGradientGrad 1 (fun _ _ => 0) (fun _ => 1)
        (fun _ => 0) pAll 5) 0
    ∧ ¬ HasDerivAt (fun r => mZero.computeGradientVal 1 (fun _ _ => 0)
        (fun _ => 1) (Function.update (fun _ => (0 : ℝ)) 5 r) pAll)
      (- mZero.computeGradientGrad 1 (fun _ _ => 0) (fun _ => 1)
        (fun _ => 0) pAll 5) 0 := by
  have hlogpos : (0 : ℝ) < Real.log 2 := Real.log_pos (by norm_num)
  have hD : HasDerivAt (fun r => mZero.computeGradientVal 1 (fun _ _ => 0)
      (fun _ => 1) (Function.update (fun _ => (0 : ℝ)) 5 r) pAll)
      (mZero.computeGradientGrad 1 (fun _ _ => 0) (fun _ => 1)
        (fun _ => 0) pAll 5) 0 :=
    cgVal_hasDerivAt_outputBias mZero 1 (fun _ _ => 0) (fun _ => 1)
      (fun _ => 0) pAll (by norm_num) (le_refl 1) (by decide) rfl (0 : Fin 1)
  have hv : mZero.setParameters (fun _ => (0 : ℝ)) pAll = mZero := rfl
  have e0 : mZero.logPost0 (fun _ : Fin 1 => (0 : ℝ)) = fun _ => 0 := by
    funext c
    simp [MCBM.logPost0, MCBM.featureOutput, mZero]
  have e1 : mZero.logPost1 (fun _ : Fin 1 => (0 : ℝ)) = fun _ => 0 := by
    funext c
    simp [MCBM.logPost1, MCBM.logPost0, MCBM.featureOutput, mZero]
  have ep0 : mZero.logProb0 (fun _ : Fin 1 => (0 : ℝ)) = 0 := by
    rw [MCBM.logProb0, e0, logSumExp_eq Nat.one_pos]
    simp
  have ep1 : mZero.logProb1 (fun _ : Fin 1 => (0 : ℝ)) = 0 := by
    rw [MCBM.logProb1, e1, logSumExp_eq Nat.one_pos]
    simp
  have eln : mZero.logNorm (fun _ : Fin 1 => (0 : ℝ)) = Real.log 2 := by
    rw [MCBM.logNorm, ep0, ep1, logSumExp2_eq]
    norm_num
  have etmp : mZero.colTmp (fun _ : Fin 1 => (0 : ℝ)) 1 = 2⁻¹ := by
    rw [MCBM.colTmp, MCBM.normLogProb0, MCBM.normLogProb1, ep0, ep1, eln]
    rw [zero_sub, Real.exp_neg, Real.exp_log (by norm_num : (0 : ℝ) < 2)]
    norm_num
  have epost1 : mZero.post1 (fun _ : Fin 1 => (0 : ℝ)) 0 = 1 := by
    simp [MCBM.post1, e1, ep1]
  have o1 : offWeights 1 1 1 pAll = 1 := rfl
  have o2 : offFeatures 1 1 1 pAll = 2 := rfl
  have o3 : offPredictors 1 1 1 pAll = 3 := rfl
  have o4 : offInputBias 1 1 1 pAll = 4 := rfl
  have o5 : offOutputBias 1 1 1 pAll = 5 := rfl
  have o6 : numParameters 1 1 1 pAll = 6 := rfl
  have oB : effBatch pAll 1 = 1 := rfl
  have hval : mZero.computeGradientGrad 1 (fun _ _ => 0) (fun _ => 1)
      (fun _ => 0) pAll 5 = Real.log 2 / 2 := by
    unfold MCBM.computeGradientGrad
    rw [o1, o2, o3, o4, o5, o6, hv]
    norm_num
    rw [batchSum_eq _ _ _ (by norm_num [oB]), Finset.sum_range_one]
    simp only [vecEntry, Nat.lt_irrefl]
    rw [dif_pos Nat.one_pos]
    show mZero.colGradOutputBias (fun d : Fin 1 => (0 : ℝ)) 1 0
        / mcbmNormConst 1 = Real.log 2 / 2
    rw [MCBM.colGradOutputBias, epost1, etmp]
    rw [mcbmNormConst]
    rw [show ((1 : ℕ) : ℝ) = 1 by norm_num]
    rw [one_div]
    field_simp
  refine ⟨hval, hD, fun h => ?_⟩
  have huniq := hD.unique h
  rw [hval] at huniq
  linarith [huniq, hlogpos]

/-- Witness for claim C1 (amended) on the smallest model, one column of
zeros with output 0, and the default (all-flagged) configuration. -/
theorem computeGradient_value_and_gradient_witness :
    ((0 < 1) ∧ (1 ≤ 1) ∧ (1 ≤ pAll.batchSize))
    ∧ ((mZero.computeGradientVal 1 (fun _ _ => 0) (fun _ => 0) (fun _ => 0) pAll
      = (∑ n ∈ Finset.range 1, (mZero.setParameters (fun _ => 0) pAll).colLogLik
          (fun d => (fun _ _ => (0 : ℝ)) d n) ((fun _ => (0 : ℝ)) n))
        / mcbmNormConst 1)
    ∧ (pAll.trainPriors = true → ∀ c₀ : Fin 1,
        HasDerivAt (fun r => mZero.computeGradientVal 1 (fun _ _ => 0)
            (fun _ => 0) (Function.update (fun _ => (0 : ℝ)) (c₀ : ℕ) r) pAll)
          (mZero.computeGradientGrad 1 (fun _ _ => 0) (fun _ => 0)
            (fun _ => 0) pAll (c₀ : ℕ))
          ((fun _ => (0 : ℝ)) (c₀ : ℕ)))
    ∧ (pAll.trainWeights = true → ∀ (c₀ : Fin 1) (f₀ : Fin 1),
        HasDerivAt (fun r => mZero.computeGradientVal 1 (fun _ _ => 0)
            (fun _ => 0) (Function.update (fun _ => (0 : ℝ))
              (offWeights 1 1 1 pAll + ((f₀ : ℕ) * 1 + c₀)) r) pAll)
          (mZero.computeGradientGrad 1 (fun _ _ => 0) (fun _ => 0)
            (fun _ => 0) pAll (offWeights 1 1 1 pAll + ((f₀ : ℕ) * 1 + c₀)))
          ((fun _ => (0 : ℝ)) (offWeights 1 1 1 pAll + ((f₀ : ℕ) * 1 + c₀))))
    ∧ (pAll.trainFeatures = true → ∀ (d₀ : Fin 1) (f₀ : Fin 1),
        HasDerivAt (fun r => mZero.computeGradientVal 1 (fun _ _ => 0)
            (fun _ => 0) (Function.update (fun _ => (0 : ℝ))
              (offFeatures 1 1 1 pAll + ((f₀ : ℕ) * 1 + d₀)) r) pAll)
          (mZero.computeGradientGrad 1 (fun _ _ => 0) (fun _ => 0)
            (fun _ => 0) pAll (offFeatures 1 1 1 pAll + ((f₀ : ℕ) * 1 + d₀)))
          ((fun _ => (0 : ℝ)) (offFeatures 1 1 1 pAll + ((f₀ : ℕ) * 1 + d₀))))
    ∧ (pAll.trainPredictors = true → ∀ (c₀ : Fin 1) (d₀ : Fin 1),
        HasDerivAt (fun r => mZero.computeGradientVal 1 (fun _ _ => 0)
            (fun _ => 0) (Function.update (fun _ => (0 : ℝ))
              (offPredictors 1 1 1 pAll + ((d₀ : ℕ) * 1 + c₀)) r) pAll)
          (mZero.computeGradientGrad 1 (fun _ _ => 0) (fun _ => 0)
            (fun _ => 0) pAll (offPredictors 1 1 1 pAll + ((d₀ : ℕ) * 1 + c₀)))
          ((fun _ => (0 : ℝ)) (offPredictors 1 1 1 pAll + ((d₀ : ℕ) * 1 + c₀))))
    ∧ (pAll.trainInputBias = true → ∀ (d₀ : Fin 1) (c₀ : Fin 1),
        HasDerivAt (fun r => mZero.computeGradientVal 1 (fun _ _ => 0)
            (fun _ => 0) (Function.update (fun _ => (0 : ℝ))
              (offInputBias 1 1 1 pAll + ((c₀ : ℕ) * 1 + d₀)) r) pAll)
          (mZero.computeGradientGrad 1 (fun _ _ => 0) (fun _ => 0)
            (fun _ => 0) pAll (offInputBias 1 1 1 pAll + ((c₀ : ℕ) * 1 + d₀)))
          ((fun _ => (0 : ℝ)) (offInputBias 1 1 1 pAll + ((c₀ : ℕ) * 1 + d₀))))
    ∧ (pAll.trainOutputBias = true → ∀ c₀ : Fin 1,
        HasDerivAt (fun r => mZero.computeGradientVal 1 (fun _ _ => 0)
            (fun _ => 0) (Function.update (fun _ => (0 : ℝ))
              (offOutputBias 1 1 1 pAll + (c₀ : ℕ)) r) pAll)
          (mZero.computeGradientGrad 1 (fun _ _ => 0) (fun _ => 0)
            (fun _ => 0) pAll (offOutputBias 1 1 1 pAll + (c₀ : ℕ)))
          ((fun _ => (0 : ℝ)) (offOutputBias 1 1 1 pAll + (c₀ : ℕ))))) :=
  ⟨⟨Nat.one_pos, le_refl 1, by decide⟩,
    computeGradient_value_and_gradient mZero 1 (fun _ _ => 0) (fun _ => 0)
      (fun _ => 0) pAll Nat.one_pos (le_refl 1) (by decide)⟩

end CMT

end
